import Mathlib

/-!
Verification of the event/channel/dispatch core of the `circuits` library
(`src/circuits/core.py`).  The Python classes `Event`, `Manager` and
`Component` are shallowly embedded: dictionaries become association lists
(Python dicts preserve insertion order of keys), the `_handlers` set becomes
a duplicate-free list in insertion order (only membership in it is ever
observable in the properties below), the handler callables become `Handler`
records whose captured return truthiness is the field `ret`, and methods
that mutate `self` become functions from manager states to manager states.
-/

namespace Circuits

/-- A handler descriptor, as produced by the `listener` decorator in
`core.py`. `hid` stands for the identity of the underlying callable
(Python compares handlers by object identity); `type` is the attribute set
by the decorator (`"listener"` or `"filter"` in valid uses, but any string
can be attached); `channels` is the tuple of channel names given to the
decorator; `ret` abstracts the truthiness of the value returned when the
callable is invoked (the signature-adaptation branches in `Manager.send`
only change the argument shape, never which handler runs nor the captured
return value, so they are not represented separately). -/
structure Handler where
  hid : Nat
  type : String
  ret : Bool
  channels : List String
deriving DecidableEq, Repr

/-- An event value (`class Event` in `core.py`): a name, positional and
keyword payload, and the mutable routing fields `channel`/`target`
(both `None` until a manager stamps them). Payload entries are numbers;
the dispatch logic never inspects them. -/
structure Event where
  name : String
  args : List Nat
  kwargs : List (String × Nat)
  channel : Option String := none
  target : Option String := none
deriving DecidableEq, Repr

/-- Python string formatting `"%s" % x` where `x` is a string or `None`. -/
def fmtOpt : Option String → String
  | none => "None"
  | some s => s

/-- The channel registry `self.channels`: a `defaultdict(list)` from
channel-name strings to lists of handlers, with keys in insertion order. -/
abbrev Registry := List (String × List Handler)

/-- First value stored under key `x`, if any (Python dict lookup; keys are
unique in every reachable registry, so "first" is exact). -/
def lookupR : Registry → String → Option (List Handler)
  | [], _ => none
  | (k, l) :: r, x => if k = x then some l else lookupR r x

/-- Python `x in d` on the registry (no auto-vivification). -/
def hasKey (r : Registry) (x : String) : Bool := (lookupR r x).isSome

/-- Python dict assignment `d[x] = v`: replace the value under `x` if the
key is present, otherwise append the new key at the end. -/
def setR : Registry → String → List Handler → Registry
  | [], x, v => [(x, v)]
  | (k, l) :: r, x, v => if k = x then (x, v) :: r else (k, l) :: setR r x v

/-- Python `defaultdict(list)` subscript `d[x]`: auto-vivifies an empty list under
a missing key.  Returns the possibly extended registry and the list. -/
def dgetR (r : Registry) (x : String) : Registry × List Handler :=
  match lookupR r x with
  | some l => (r, l)
  | none => (r ++ [(x, [])], [])

/-- The keys of the registry, in order (Python `d.keys()`). -/
def keysR (r : Registry) : List String := r.map (·.1)

/-- Lexicographic comparison of character lists by code point: the order
Python uses to compare strings. -/
def charsLe : List Char → List Char → Bool
  | [], _ => true
  | _ :: _, [] => false
  | a :: as, b :: bs => if a < b then true else if b < a then false else charsLe as bs

/-- Python string comparison `a <= b`. -/
def strLe (a b : String) : Bool := charsLe a.data b.data

/-- Python `s.endswith(t)`. -/
def strEndsWith (s t : String) : Bool := t.data.isSuffixOf s.data

/-- Python `s.startswith(t)`. -/
def strStartsWith (s t : String) : Bool := t.data.isPrefixOf s.data

/-- Python `":" in s` for a single character. -/
def strContains (s : String) (c : Char) : Bool := s.data.contains c

/-- The relation `lambda x: x.type` sorts by: compare the `type` strings.
`list.sort(key=...)` in Python is a stable sort by this preorder, and the
stable sort of a list by a total preorder is unique, so Mathlib's
insertion sort with the same preorder computes exactly Python's result. -/
def typeLe (a b : Handler) : Prop := strLe a.type b.type = true

instance : DecidableRel typeLe := fun a b => inferInstanceAs (Decidable (strLe a.type b.type = true))

/-- The call `self.channels[channel].sort(key=lambda x: x.type)` from `Manager.add`. -/
def sortByType (l : List Handler) : List Handler := l.insertionSort typeLe

/-- The mutable state of one `Manager`: the pending event queue
(`self._queue`, a deque appended on the right), the global handler set
(`self._handlers`), and the channel registry (`self.channels`). -/
structure MState where
  queue : List Event
  hset : List Handler
  channels : Registry
deriving DecidableEq, Repr

/-- Constructor `Manager.__init__`: empty queue, empty handler set, empty registry. -/
def initM : MState := ⟨[], [], []⟩

/-- Split a character list at its first colon, if any. -/
def splitColon : List Char → Option (List Char × List Char)
  | [] => none
  | c :: cs =>
    if c = ':' then some ([], cs)
    else (splitColon cs).map (fun p => (⟨c :: p.1, p.2⟩ : List Char × List Char))

/-- The test `":" in s` and split `s.split(":", 1)` from `Manager.handlers`:
target before the first colon (if any) and the rest as the channel. -/
def splitTarget (s : String) : Option String × String :=
  match splitColon s.data with
  | some p => (some ⟨p.1⟩, ⟨p.2⟩)
  | none => (none, s)

/-- The method `Manager.handlers(s)` (channel resolution).  Mirrors the four-way
branch of the source; the state is returned as well because the
`defaultdict` accesses `channels["*"]`, `channels[target + ":*"]` and
`channels[s]` vivify missing keys.  The `*:*` case returns the handler
set itself. -/
def handlersM (m : MState) (s : String) : MState × List Handler :=
  let tc := splitTarget s
  let target := tc.1
  let channel := tc.2
  let g := dgetR m.channels "*"
  let r₁ := g.1
  let globals := g.2
  if target = some "*" ∧ channel = "*" then
    ({ m with channels := r₁ }, m.hset)
  else if target = some "*" then
    let c := ":" ++ channel
    let all := ((r₁.filter (fun kv => kv.1 == channel || strEndsWith kv.1 c)).map (·.2)).flatten
    ({ m with channels := r₁ }, globals ++ all)
  else if channel = "*" then
    let c := fmtOpt target ++ ":"
    let all := ((r₁.filter (fun kv => strStartsWith kv.1 c || ! strContains kv.1 ':')).map (·.2)).flatten
    ({ m with channels := r₁ }, globals ++ all)
  else
    let a := dgetR r₁ (fmtOpt target ++ ":*")
    let b := dgetR a.1 s
    ({ m with channels := b.1 }, globals ++ a.2 ++ b.2)

/-- The subscript `Manager.__getitem__`: `self.channels[x]`, vivifying a missing key. -/
def getitemM (m : MState) (x : String) : MState × List Handler :=
  let p := dgetR m.channels x
  ({ m with channels := p.1 }, p.2)

/-- The method `Manager.add(handler, channel=None)`.  Raising `InvalidHandler` is
embedded as `Except.error`; the checks and updates happen in source
order (type validation, `_handlers.add`, then the channel list). -/
def add (m : MState) (h : Handler) (channel : Option String) : Except Handler MState :=
  if h.type = "filter" ∨ h.type = "listener" then
    let hset₁ := if h ∈ m.hset then m.hset else m.hset ++ [h]
    let c := channel.getD "*"
    match lookupR m.channels c with
    | some l =>
      if h ∈ l then .ok { m with hset := hset₁ }
      else .ok { m with hset := hset₁, channels := setR m.channels c (sortByType (l ++ [h])) }
    | none => .ok { m with hset := hset₁, channels := m.channels ++ [(c, [h])] }
  else .error h

/-- One iteration of the final loop of `Manager.remove`:
`if handler in self.channels[channel]: self.channels[channel].remove(handler)`
(the subscript vivifies a missing key; `list.remove` erases the first
occurrence). -/
def removeStep (r : Registry) (h : Handler) (k : String) : Registry :=
  let p := dgetR r k
  if h ∈ p.2 then setR p.1 k (p.2.erase h) else p.1

/-- The final loop of `Manager.remove` over the key list. -/
def removeKeys (h : Handler) : Registry → List String → Registry
  | r, [] => r
  | r, k :: ks => removeKeys h (removeStep r h k) ks

/-- The method `Manager.remove(handler, channel=None)`. -/
def remove (m : MState) (h : Handler) (channel : Option String) : MState :=
  match channel with
  | none =>
    let g := dgetR m.channels "*"
    let r₁ := if h ∈ g.2 then setR g.1 "*" (g.2.erase h) else g.1
    let keys := keysR r₁
    let hset₁ := if h ∈ m.hset then m.hset.erase h else m.hset
    { m with hset := hset₁, channels := removeKeys h r₁ keys }
  | some c =>
    let hset₁ := if h ∈ m.hset then m.hset.erase h else m.hset
    { m with hset := hset₁, channels := removeKeys h m.channels [c] }

/-- Stamping of the routing fields (`event.channel = channel;
event.target = target`). -/
def stampE (e : Event) (c : String) (t : Option String) : Event :=
  { e with channel := some c, target := t }

/-- The method `Manager.push` executed at the root (`self.manager == self`): stamp the
event and append it on the right of the deque. -/
def pushRoot (m : MState) (e : Event) (c : String) (t : Option String) : MState :=
  { m with queue := m.queue ++ [stampE e c t] }

/-- The resolution key built by `Manager.send`:
`if target is not None: channel = "%s:%s" % (target, channel)`. -/
def sendKey (c : String) (t : Option String) : String :=
  match t with
  | none => c
  | some tg => tg ++ ":" ++ c

/-- The dispatch loop of `Manager.send`: invoke handlers in sequence
order; after invoking a handler whose captured return value is truthy and
whose `type` is `"filter"`, break.  Returns the invoked handlers in
order. -/
def runLoop : List Handler → List Handler
  | [] => []
  | h :: rest => if h.ret ∧ h.type = "filter" then [h] else h :: runLoop rest

/-- The method `Manager.send` executed at the root: stamp the event, build the
resolution key, resolve the handler sequence (mutating the registry via
vivification) and run the dispatch loop.  Returns the new state and the
handlers that were invoked. -/
def sendRoot (m : MState) (e : Event) (c : String) (t : Option String) : MState × List Handler :=
  let p := handlersM m (sendKey c t)
  (p.1, runLoop p.2)

/-- The drain loop of `Manager.flush`: the swapped-out queue is popped
from the right, so the events are processed in reverse of append order.
Returns the state and the dispatched (stamped) events in dispatch order.
A queued event pushed through `push` always has `channel = some c`; the
`fmtOpt` conversion is exact on such events. -/
def drainLoop : MState → List Event → MState × List Event
  | m, [] => (m, [])
  | m, e :: rest =>
    let e₁ := stampE e (fmtOpt e.channel) e.target
    let m₁ := (sendRoot m e (fmtOpt e.channel) e.target).1
    let p := drainLoop m₁ rest
    (p.1, e₁ :: p.2)

/-- The method `Manager.flush` executed at the root: swap the queue for a fresh empty
one, then drain the swapped-out queue from its right end. -/
def flushRoot (m : MState) : MState × List Event :=
  drainLoop { m with queue := [] } m.queue.reverse

/-- The key a component registers a declared channel name under:
`if self.channel is not None: channel = "%s:%s" % (self.channel, channel)`. -/
def chanKey (cchannel : Option String) (ch : String) : String :=
  match cchannel with
  | none => ch
  | some c => c ++ ":" ++ ch

/-- The inner loop of `Component.register` for one discovered handler:
substitute `["*"]` for an empty channel tuple, prefix each name with the
component channel, and `add` into the target manager. -/
def addHandlerChannels (target : MState) (cchannel : Option String) (h : Handler) :
    Except Handler MState :=
  let chans := if h.channels = [] then ["*"] else h.channels
  chans.foldlM (fun acc ch => add acc h (some (chanKey cchannel ch))) target

/-- The discovery-and-add phase of `Component.register`: every tagged
handler of the component is added to the target manager under its
(prefixed) channels. -/
def registerAdds (target : MState) (cchannel : Option String) (tagged : List Handler) :
    Except Handler MState :=
  tagged.foldlM (fun acc h => addHandlerChannels acc cchannel h) target

/-- The `Registered()` event dispatched by `Component.register` when the
target manager is not the component itself. -/
def registeredEvent : Event := { name := "Registered", args := [], kwargs := [] }

/-- The method `Component.register(manager)` restricted to its effect on the target
manager state: the adds, then (when the target is a different manager,
assumed here to be a root) the synchronous `Registered` dispatch on
channel `"registered"` targeted at the component channel. -/
def registerRun (target : MState) (cchannel : Option String) (tagged : List Handler)
    (selfTarget : Bool) : Except Handler MState := do
  let m₁ ← registerAdds target cchannel tagged
  if selfTarget then
    return m₁
  else
    return (sendRoot m₁ registeredEvent "registered" cchannel).1

/-- The loop of `Component.unregister`: remove every handler of the
component's own handler set from the manager `ms`, with no channel
argument. -/
def unregFold (ms : MState) (hs : List Handler) : MState :=
  hs.foldl (fun acc h => remove acc h none) ms

/-- Value stored in the registry under `k` (empty if absent). -/
def getListR (r : Registry) (k : String) : List Handler :=
  (lookupR r k).getD []

/-- Value stored in the registry of `m` under `k` (empty if absent). -/
def getList (m : MState) (k : String) : List Handler :=
  getListR m.channels k

/-- The handler sequence resolved by `Manager.handlers`, discarding the
vivification side effect. -/
def resolvedList (m : MState) (s : String) : List Handler :=
  (handlersM m s).2

/-- One manager/component in a configuration: its state, its `manager`
reference (an index into the configuration; `mgr =` own index means the
node is a root), its `channel` attribute and its tagged handler methods
(empty for a plain `Manager`). -/
structure WNode where
  st : MState
  mgr : Nat
  cchannel : Option String
  tagged : List Handler
deriving DecidableEq, Repr

/-- A configuration of managers and components; indices are object
identities. -/
abbrev World := List WNode

/-- One step of `self.manager` delegation from node `i`. -/
def chainW (w : World) (i : Nat) : Nat :=
  match w[i]? with
  | some n => n.mgr
  | none => i

/-- The test `self.manager == self` at node `i`. -/
def isRootW (w : World) (i : Nat) : Bool := chainW w i == i

/-- Taking `k` delegation steps from node `i`. -/
def chainIter (w : World) : Nat → Nat → Nat
  | 0, i => i
  | k + 1, i => chainIter w k (chainW w i)

/-- The recursion of `push`/`flush`/`send`: delegate to `self.manager`
until `self.manager == self`, with explicit fuel; `none` means the
recursion does not terminate within the given fuel. -/
def findRootW (w : World) (i : Nat) : Nat → Option Nat
  | 0 => if isRootW w i then some i else none
  | f + 1 => if isRootW w i then some i else findRootW w (chainW w i) f

/-- Replace node `i` of the configuration. -/
def updNode (w : World) (i : Nat) (f : WNode → WNode) : World :=
  match w[i]? with
  | some n => w.set i (f n)
  | none => w

/-- Method `push` called on node `i`: delegate to the root, then run the root
body there. -/
def pushW (w : World) (i : Nat) (e : Event) (c : String) (t : Option String) (fuel : Nat) :
    Option World :=
  (findRootW w i fuel).map (fun r => updNode w r (fun n => { n with st := pushRoot n.st e c t }))

/-- Method `send` called on node `i`: delegate to the root, then run the root
body there. -/
def sendW (w : World) (i : Nat) (e : Event) (c : String) (t : Option String) (fuel : Nat) :
    Option World :=
  (findRootW w i fuel).map
    (fun r => updNode w r (fun n => { n with st := (sendRoot n.st e c t).1 }))

/-- Method `flush` called on node `i`: delegate to the root, then drain there. -/
def flushW (w : World) (i : Nat) (fuel : Nat) : Option World :=
  (findRootW w i fuel).map (fun r => updNode w r (fun n => { n with st := (flushRoot n.st).1 }))

/-- The configuration transitions offered by the source: constructing a
plain `Manager`, constructing a `Component` (which runs `register(self)`
during `__init__`, with no `Registered` dispatch because the target is
itself), `Component.register` with a different target manager (adds, then
a synchronous `Registered` send that delegates from the target to its
root — required to terminate for the call to return — then the `manager`
pointer update), `Component.register` with the component itself as
target, and `Component.unregister` (removals run directly on the current
`manager` reference, which is one hop, not the root). -/
inductive WStep : World → World → Prop
  | newManager (w : World) :
      WStep w (w ++ [⟨initM, w.length, none, []⟩])
  | newComponent (w : World) (cch : Option String) (tg : List Handler) (st : MState) :
      registerAdds initM cch tg = .ok st →
      WStep w (w ++ [⟨st, w.length, cch, tg⟩])
  | registerOther (w : World) (i j : Nat) (ni nj : WNode) (stj : MState) (r : Nat)
      (w₁ w₂ : World) :
      w[i]? = some ni → w[j]? = some nj → i ≠ j →
      registerAdds nj.st ni.cchannel ni.tagged = .ok stj →
      w₁ = updNode w j (fun n => { n with st := stj }) →
      findRootW w₁ j w₁.length = some r →
      w₂ = updNode w₁ r
        (fun n => { n with st := (sendRoot n.st registeredEvent "registered" ni.cchannel).1 }) →
      WStep w (updNode w₂ i (fun n => { n with mgr := j }))
  | registerSelf (w : World) (i : Nat) (ni : WNode) (sti : MState) :
      w[i]? = some ni →
      registerAdds ni.st ni.cchannel ni.tagged = .ok sti →
      WStep w (updNode w i (fun n => { n with st := sti, mgr := i }))
  | unregister (w : World) (i : Nat) (ni : WNode) :
      w[i]? = some ni →
      WStep w (updNode (updNode w ni.mgr (fun n => { n with st := unregFold n.st ni.st.hset })) i
        (fun n => { n with mgr := i }))

/-- Configurations reachable via construction, `register` and
`unregister`. -/
inductive ReachW : World → Prop
  | nil : ReachW []
  | step {w w₁ : World} : ReachW w → WStep w w₁ → ReachW w₁

/-- Manager registry states reachable from a fresh manager by any
sequence of `add` and `remove` calls (a failing `add` raises before
mutating anything, so it leaves the state unchanged). -/
inductive ReachAR : MState → Prop
  | init : ReachAR initM
  | ofAdd {m : MState} {h : Handler} {c : Option String} {m₁ : MState} :
      ReachAR m → add m h c = .ok m₁ → ReachAR m₁
  | ofRemove {m : MState} (h : Handler) (c : Option String) :
      ReachAR m → ReachAR (remove m h c)

/-- The test `type == "filter"`, the discriminator used by dispatch and ordering. -/
def isF (h : Handler) : Bool := h.type == "filter"

/-- A handler that passes `add`'s validation. -/
def validType (h : Handler) : Prop := h.type = "filter" ∨ h.type = "listener"

instance : DecidablePred validType :=
  fun h => inferInstanceAs (Decidable (h.type = "filter" ∨ h.type = "listener"))

/-- Every `"filter"`-type handler precedes every other handler: the list
equals its filters followed by its non-filters, each in relative order. -/
def Sep (l : List Handler) : Prop :=
  l = l.filter isF ++ l.filter (fun h0 => ! isF h0)

instance : DecidablePred Sep :=
  fun l => inferInstanceAs (Decidable (l = l.filter isF ++ l.filter (fun h0 => ! isF h0)))

/-- The structural invariant of a reachable registry: unique keys, and
per-channel lists that are duplicate-free, contain only validated
handlers, and keep filters before listeners; the handler set is
duplicate-free as well. -/
structure RegInv (m : MState) : Prop where
  keysNodup : (keysR m.channels).Nodup
  listsNodup : ∀ kv ∈ m.channels, (kv.2 : List Handler).Nodup
  listsValid : ∀ kv ∈ m.channels, ∀ h ∈ (kv.2 : List Handler), validType h
  listsSep : ∀ kv ∈ m.channels, Sep kv.2
  hsetNodup : m.hset.Nodup

/-! ### Concrete instances used to evaluate the development -/

/-- A tagged listener with no declared channels (`@listener()`). -/
def hWL : Handler := ⟨0, "listener", false, []⟩

/-- A tagged filter whose return value is truthy. -/
def hWF : Handler := ⟨1, "filter", true, []⟩

/-- A tagged listener declared on channel `"x"`. -/
def hWL2 : Handler := ⟨2, "listener", true, ["x"]⟩

/-- A manager holding `hWL` on channels `"c"` and `"*"`. -/
def mW : MState := ⟨[], [hWL], [("c", [hWL]), ("*", [hWL])]⟩

/-- The manager state produced by registering `hWL` (no declared
channels) on a component whose `channel` is `"foo"`, into a fresh
manager. -/
def mC5 : MState := ⟨[], [hWL], [("foo:*", [hWL])]⟩

/-- A root manager state after one `Registered` dispatch on channel
`"registered"` with no target: the three resolution keys are vivified. -/
def stReg : MState := ⟨[], [], [("*", []), ("None:*", []), ("registered", [])]⟩

/-- The own state of a channel-less component with the single tagged
handler `hWL2`, right after its construction-time `register(self)`. -/
def mC6self : MState := ⟨[], [hWL2], [("x", [hWL2])]⟩

/-- A fresh manager after that component registered onto it: the add,
then the `Registered` dispatch vivifying its resolution keys. -/
def mC6reg : MState :=
  ⟨[], [hWL2], [("x", [hWL2]), ("*", []), ("None:*", []), ("registered", [])]⟩

/-- Two fresh components, each its own root. -/
def cexW2 : World := [⟨initM, 0, none, []⟩, ⟨initM, 1, none, []⟩]

/-- The two fresh components after the `Registered` dispatch of
`register 0 1` has run at the root of node 1 (vivifying its keys), just
before the pointer update. -/
def cexW2b : World := [⟨initM, 0, none, []⟩, ⟨stReg, 1, none, []⟩]

/-- After `register 0 1` (component 0 registered under component 1). -/
def cexW3 : World := [⟨initM, 1, none, []⟩, ⟨stReg, 1, none, []⟩]

/-- After the further `register 1 0`: the manager pointers form a cycle. -/
def wCyc : World := [⟨initM, 1, none, []⟩, ⟨stReg, 0, none, []⟩]

/-- A two-node configuration whose pointer graph is acyclic
(`0 ↦ 1`, `1` a root). -/
def wAcyc : World := [⟨initM, 1, none, []⟩, ⟨initM, 1, none, []⟩]

/-! ### Registry lemmas -/

theorem lookupR_append (r₁ r₂ : Registry) (x : String) :
    lookupR (r₁ ++ r₂) x =
      match lookupR r₁ x with
      | some l => some l
      | none => lookupR r₂ x := by
  induction r₁ with
  | nil => simp [lookupR]
  | cons kv r ih =>
    obtain ⟨k, l⟩ := kv
    by_cases hk : k = x <;> simp [lookupR, hk, ih]

theorem lookupR_setR_self (r : Registry) (k : String) (v : List Handler) :
    lookupR (setR r k v) k = some v := by
  induction r with
  | nil => simp [setR, lookupR]
  | cons kv r ih =>
    obtain ⟨k₀, l₀⟩ := kv
    by_cases hk : k₀ = k <;> simp [setR, hk, lookupR, ih]

theorem lookupR_setR_ne (r : Registry) {k x : String} (v : List Handler) (hne : k ≠ x) :
    lookupR (setR r k v) x = lookupR r x := by
  induction r with
  | nil => simp [setR, lookupR, hne]
  | cons kv r ih =>
    obtain ⟨k₀, l₀⟩ := kv
    by_cases hk : k₀ = k
    · subst hk
      simp [setR, lookupR, hne]
    · simp [setR, hk, lookupR, ih]

theorem keysR_setR_of_hasKey (r : Registry) (k : String) (v : List Handler)
    (h : hasKey r k = true) : keysR (setR r k v) = keysR r := by
  induction r with
  | nil => simp [hasKey, lookupR] at h
  | cons kv r ih =>
    obtain ⟨k₀, l₀⟩ := kv
    by_cases hk : k₀ = k
    · subst hk
      simp [setR, keysR]
    · simp only [hasKey, lookupR, hk, if_false] at h
      simpa [setR, hk, keysR] using ih h

theorem mem_of_lookupR {r : Registry} {k : String} {l : List Handler}
    (h : lookupR r k = some l) : (k, l) ∈ r := by
  induction r with
  | nil => simp [lookupR] at h
  | cons kv r ih =>
    obtain ⟨k₀, l₀⟩ := kv
    by_cases hk : k₀ = k
    · subst hk
      simp [lookupR] at h
      simp [h]
    · simp only [lookupR, hk, if_false] at h
      exact List.mem_cons_of_mem _ (ih h)

theorem lookupR_isSome_iff {r : Registry} {x : String} :
    (lookupR r x).isSome = true ↔ x ∈ keysR r := by
  induction r with
  | nil => simp [lookupR, keysR]
  | cons kv r ih =>
    obtain ⟨k₀, l₀⟩ := kv
    by_cases hk : k₀ = x <;> simp [lookupR, hk, keysR, ih] <;> tauto

theorem lookupR_eq_none_of_not_mem {r : Registry} {x : String} (h : x ∉ keysR r) :
    lookupR r x = none := by
  cases he : lookupR r x with
  | none => rfl
  | some l =>
    exact absurd (lookupR_isSome_iff.mp (by simp [he])) h

theorem lookupR_of_mem_nodup {r : Registry} {k : String} {l : List Handler}
    (hnd : (keysR r).Nodup) (hm : (k, l) ∈ r) : lookupR r k = some l := by
  induction r with
  | nil => simp at hm
  | cons kv r ih =>
    obtain ⟨k₀, l₀⟩ := kv
    simp only [keysR, List.map_cons, List.nodup_cons] at hnd
    rcases List.mem_cons.mp hm with he | hm₁
    · cases he
      simp [lookupR]
    · have hk : k₀ ≠ k := by
        intro hcon
        subst hcon
        exact hnd.1 (List.mem_map.mpr ⟨(k₀, l), hm₁, rfl⟩)
      simp only [lookupR, hk, if_false]
      exact ih hnd.2 hm₁

theorem not_mem_keys_of_lookupR_none {r : Registry} {x : String} (he : lookupR r x = none) :
    x ∉ keysR r := by
  intro hmem
  have := lookupR_isSome_iff.mpr hmem
  rw [he] at this
  cases this

theorem getListR_dgetR_fst (r : Registry) (x k : String) :
    getListR (dgetR r x).1 k = getListR r k := by
  unfold dgetR
  cases he : lookupR r x with
  | some l => rfl
  | none =>
    by_cases hk : k = x
    · subst hk
      simp [getListR, lookupR_append, he, lookupR]
    · simp only [getListR, lookupR_append]
      cases h₂ : lookupR r k with
      | some l => rfl
      | none =>
        have hne : x ≠ k := fun hcon => hk hcon.symm
        simp [lookupR, hne]

theorem dgetR_snd (r : Registry) (x : String) : (dgetR r x).2 = getListR r x := by
  unfold dgetR getListR
  cases lookupR r x <;> rfl

theorem dgetR_keysR (r : Registry) (x : String) :
    keysR (dgetR r x).1 = if x ∈ keysR r then keysR r else keysR r ++ [x] := by
  unfold dgetR
  cases he : lookupR r x with
  | some l =>
    have hmem : x ∈ keysR r := lookupR_isSome_iff.mp (by simp [he])
    simp [hmem]
  | none =>
    have hmem : x ∉ keysR r := not_mem_keys_of_lookupR_none he
    simp only [keysR] at hmem ⊢
    simp [hmem]

theorem getListR_eq_of_mem_keys {r : Registry} {x : String} (h : x ∈ keysR r) :
    ∃ l, lookupR r x = some l ∧ getListR r x = l := by
  have := lookupR_isSome_iff.mpr h
  cases he : lookupR r x with
  | none => simp [he] at this
  | some l => exact ⟨l, rfl, by simp [getListR, he]⟩

/-! ### Sorting lemmas: Python `list.sort(key=lambda x: x.type)` -/

theorem charsLe_refl (a : List Char) : charsLe a a = true := by
  induction a with
  | nil => rfl
  | cons c cs ih => simp [charsLe, ih]

theorem charsLe_total (a b : List Char) : charsLe a b = true ∨ charsLe b a = true := by
  induction a generalizing b with
  | nil => exact .inl rfl
  | cons c cs ih =>
    cases b with
    | nil => exact .inr rfl
    | cons d ds =>
      rcases lt_trichotomy c d with h | h | h
      · left
        simp [charsLe, h]
      · subst h
        simpa [charsLe, lt_irrefl] using ih ds
      · right
        simp [charsLe, h]

theorem charsLe_trans {a b c : List Char} (h₁ : charsLe a b = true) (h₂ : charsLe b c = true) :
    charsLe a c = true := by
  induction a generalizing b c with
  | nil => rfl
  | cons x xs ih =>
    cases b with
    | nil => simp [charsLe] at h₁
    | cons y ys =>
      cases c with
      | nil => simp [charsLe] at h₂
      | cons z zs =>
        simp only [charsLe] at h₁ h₂ ⊢
        by_cases hxy : x < y
        · by_cases hyz : y < z
          · simp [hxy.trans hyz]
          · by_cases hzy : z < y
            · rw [if_neg hyz, if_pos hzy] at h₂
              cases h₂
            · have heq : y = z := le_antisymm (not_lt.mp hzy) (not_lt.mp hyz)
              subst heq
              simp [hxy]
        · by_cases hyx : y < x
          · rw [if_neg hxy, if_pos hyx] at h₁
            cases h₁
          · have heq : x = y := le_antisymm (not_lt.mp hyx) (not_lt.mp hxy)
            subst heq
            rw [if_neg hxy, if_neg hyx] at h₁
            by_cases hxz : x < z
            · simp [hxz]
            · by_cases hzx : z < x
              · rw [if_neg hxz, if_pos hzx] at h₂
                cases h₂
              · rw [if_neg hxz, if_neg hzx] at h₂ ⊢
                exact ih h₁ h₂

theorem strLe_refl (a : String) : strLe a a = true := charsLe_refl a.data

instance : IsTotal Handler typeLe :=
  ⟨fun a b => charsLe_total a.type.data b.type.data⟩

instance : IsTrans Handler typeLe :=
  ⟨fun _ _ _ h₁ h₂ => charsLe_trans h₁ h₂⟩

theorem type_ne_of_not_typeLe {a b : Handler} (h : ¬ typeLe a b) : a.type ≠ b.type := by
  intro hcon
  exact h (by unfold typeLe strLe; rw [hcon]; exact charsLe_refl _)

theorem sortByType_perm (l : List Handler) : List.Perm (sortByType l) l :=
  List.perm_insertionSort typeLe l

theorem mem_sortByType {x : Handler} {l : List Handler} : x ∈ sortByType l ↔ x ∈ l :=
  (sortByType_perm l).mem_iff

theorem sortByType_nodup {l : List Handler} (h : l.Nodup) : (sortByType l).Nodup :=
  ((sortByType_perm l).nodup_iff).mpr h

theorem sortByType_sorted (l : List Handler) : List.Sorted typeLe (sortByType l) :=
  List.sorted_insertionSort typeLe l

theorem filter_type_orderedInsert (t : String) (a : Handler) (l : List Handler) :
    (List.orderedInsert typeLe a l).filter (fun h0 => h0.type == t) =
      ((a :: l).filter (fun h0 => h0.type == t)) := by
  induction l with
  | nil => rfl
  | cons b l ih =>
    by_cases hle : typeLe a b
    · simp [List.orderedInsert, hle]
    · have hne : a.type ≠ b.type := type_ne_of_not_typeLe hle
      simp only [List.orderedInsert, if_neg hle]
      by_cases hbt : b.type = t
      · have hat : (a.type == t) = false := by
          simp only [beq_eq_false_iff_ne, ne_eq]
          intro hcon
          exact hne (hcon.trans hbt.symm)
        simp only [List.filter_cons]
        simp [hbt, hat, ih, List.filter_cons]
      · simp only [List.filter_cons]
        have hbt' : (b.type == t) = false := by simpa using hbt
        simp only [hbt', Bool.false_eq_true, if_false, ih, List.filter_cons]

theorem sortByType_filter_type (t : String) (l : List Handler) :
    (sortByType l).filter (fun h0 => h0.type == t) = l.filter (fun h0 => h0.type == t) := by
  induction l with
  | nil => rfl
  | cons a l ih =>
    have : sortByType (a :: l) = List.orderedInsert typeLe a (sortByType l) := rfl
    rw [this, filter_type_orderedInsert]
    simp only [List.filter_cons]
    rw [ih]

/-! ### Separation (filters before listeners) -/

theorem sep_nil : Sep [] := rfl

theorem sep_append {u v : List Handler} (hu : ∀ x ∈ u, isF x = true)
    (hv : ∀ x ∈ v, isF x = false) : Sep (u ++ v) := by
  unfold Sep
  rw [List.filter_append, List.filter_append]
  rw [List.filter_eq_self.mpr hu, List.filter_eq_nil_iff.mpr (by intro x hx; simp [hv x hx])]
  rw [List.filter_eq_nil_iff.mpr (by intro x hx; simp [hu x hx]),
    List.filter_eq_self.mpr (by intro x hx; simp [hv x hx])]
  simp

theorem sep_parts {l : List Handler} (h : Sep l) :
    ∃ u v, l = u ++ v ∧ (∀ x ∈ u, isF x = true) ∧ (∀ x ∈ v, isF x = false) := by
  refine ⟨l.filter isF, l.filter (fun h0 => ! isF h0), h, ?_, ?_⟩
  · intro x hx
    exact List.of_mem_filter hx
  · intro x hx
    have := List.of_mem_filter hx
    simpa using this

theorem sep_erase {l : List Handler} (h : Sep l) (a : Handler) : Sep (l.erase a) := by
  obtain ⟨u, v, rfl, hu, hv⟩ := sep_parts h
  by_cases hm : a ∈ u
  · rw [List.erase_append_left _ hm]
    exact sep_append (fun x hx => hu x (List.mem_of_mem_erase hx)) hv
  · rw [List.erase_append_right _ hm]
    exact sep_append hu (fun x hx => hv x (List.mem_of_mem_erase hx))

theorem sep_of_sorted {l : List Handler} (hval : ∀ h ∈ l, validType h)
    (hs : List.Sorted typeLe l) : Sep l := by
  induction l with
  | nil => exact sep_nil
  | cons a l ih =>
    rw [List.sorted_cons] at hs
    have hsep : Sep l := ih (fun h hm => hval h (List.mem_cons_of_mem a hm)) hs.2
    rcases hval a (List.mem_cons_self a l) with hf | hl
    · have ha : isF a = true := by simp [isF, hf]
      have h₁ : (a :: l).filter isF = a :: l.filter isF := List.filter_cons_of_pos ha
      have h₂ : (a :: l).filter (fun h0 => ! isF h0) = l.filter (fun h0 => ! isF h0) :=
        List.filter_cons_of_neg (by simp [ha])
      unfold Sep
      rw [h₁, h₂, List.cons_append]
      exact congrArg (a :: ·) hsep
    · have hall : ∀ b ∈ l, isF b = false := by
        intro b hb
        rcases hval b (List.mem_cons_of_mem a hb) with hbf | hbl
        · exfalso
          have := hs.1 b hb
          unfold typeLe strLe at this
          rw [hl, hbf] at this
          have hcon : charsLe "listener".data "filter".data = false := by decide
          rw [hcon] at this
          cases this
        · simp [isF, hbl]
      have ha : isF a = false := by simp [isF, hl]
      have h₁ : (a :: l).filter isF = [] := by
        rw [List.filter_cons_of_neg (by simp [ha])]
        exact List.filter_eq_nil_iff.mpr (fun x hx => by simp [hall x hx])
      have h₂ : (a :: l).filter (fun h0 => ! isF h0) = a :: l := by
        apply List.filter_eq_self.mpr
        intro x hx
        rcases List.mem_cons.mp hx with hx₀ | hx₁
        · subst hx₀
          simp [ha]
        · simp [hall x hx₁]
      unfold Sep
      rw [h₁, h₂, List.nil_append]

theorem sortByType_sep {l : List Handler} (hval : ∀ h ∈ l, validType h) :
    Sep (sortByType l) :=
  sep_of_sorted (fun h hm => hval h (mem_sortByType.mp hm)) (sortByType_sorted l)

/-! ### Lemmas about `Manager.add` -/

theorem mem_setR {r : Registry} {k : String} {v : List Handler} {kv : String × List Handler}
    (h : kv ∈ setR r k v) : kv ∈ r ∨ kv = (k, v) := by
  induction r with
  | nil =>
    simp [setR] at h
    simp [h]
  | cons kv₀ r ih =>
    obtain ⟨k₀, l₀⟩ := kv₀
    by_cases hk : k₀ = k
    · subst hk
      simp only [setR, if_pos rfl] at h
      rcases List.mem_cons.mp h with he | hm
      · exact .inr he
      · exact .inl (List.mem_cons_of_mem _ hm)
    · simp only [setR, if_neg hk] at h
      rcases List.mem_cons.mp h with he | hm
      · exact .inl (by simp [he])
      · rcases ih hm with h₁ | h₁
        · exact .inl (List.mem_cons_of_mem _ h₁)
        · exact .inr h₁

theorem sep_singleton (x : Handler) : Sep [x] := by
  by_cases hx : isF x = true
  · have := sep_append (u := [x]) (v := []) (by simpa using hx) (by intro y hy; cases hy)
    simpa using this
  · have := sep_append (u := []) (v := [x]) (by intro y hy; cases hy)
      (by simpa using (Bool.not_eq_true _).mp hx)
    simpa using this

theorem add_cases {m : MState} {h : Handler} {c : Option String} {m₁ : MState}
    (ha : add m h c = .ok m₁) :
    validType h ∧ m₁.queue = m.queue ∧
      m₁.hset = (if h ∈ m.hset then m.hset else m.hset ++ [h]) ∧
      ((∃ l, lookupR m.channels (c.getD "*") = some l ∧ h ∈ l ∧ m₁.channels = m.channels) ∨
        (∃ l, lookupR m.channels (c.getD "*") = some l ∧ h ∉ l ∧
          m₁.channels = setR m.channels (c.getD "*") (sortByType (l ++ [h]))) ∨
        (lookupR m.channels (c.getD "*") = none ∧
          m₁.channels = m.channels ++ [(c.getD "*", [h])])) := by
  simp only [add] at ha
  split at ha
  next hv =>
    refine ⟨hv, ?_⟩
    split at ha
    next l he =>
      split at ha
      next hm =>
        cases ha
        exact ⟨rfl, rfl, .inl ⟨l, he, hm, rfl⟩⟩
      next hm =>
        cases ha
        exact ⟨rfl, rfl, .inr (.inl ⟨l, he, hm, rfl⟩)⟩
    next he =>
      cases ha
      exact ⟨rfl, rfl, .inr (.inr ⟨he, rfl⟩)⟩
  next hv => cases ha

theorem add_valid {m : MState} {h : Handler} {c : Option String} {m₁ : MState}
    (ha : add m h c = .ok m₁) : validType h := (add_cases ha).1

theorem add_ok_of_valid (m : MState) {h : Handler} (c : Option String) (hv : validType h) :
    ∃ m₁, add m h c = .ok m₁ := by
  unfold validType at hv
  simp only [add, if_pos hv]
  cases lookupR m.channels (c.getD "*") with
  | some l =>
    by_cases hm : h ∈ l
    · exact ⟨{ m with hset := (if h ∈ m.hset then m.hset else m.hset ++ [h]) }, by simp [hm]⟩
    · exact ⟨{ m with
        hset := (if h ∈ m.hset then m.hset else m.hset ++ [h]),
        channels := setR m.channels (c.getD "*") (sortByType (l ++ [h])) }, by simp [hm]⟩
  | none => exact ⟨_, rfl⟩

theorem add_queue {m : MState} {h : Handler} {c : Option String} {m₁ : MState}
    (ha : add m h c = .ok m₁) : m₁.queue = m.queue := (add_cases ha).2.1

theorem add_hset {m : MState} {h : Handler} {c : Option String} {m₁ : MState}
    (ha : add m h c = .ok m₁) :
    m₁.hset = (if h ∈ m.hset then m.hset else m.hset ++ [h]) := (add_cases ha).2.2.1

theorem add_mem_hset {m : MState} {h : Handler} {c : Option String} {m₁ : MState}
    (ha : add m h c = .ok m₁) : h ∈ m₁.hset := by
  rw [add_hset ha]
  by_cases hm : h ∈ m.hset <;> simp [hm]

theorem add_hset_mono {m : MState} {h : Handler} {c : Option String} {m₁ : MState}
    (ha : add m h c = .ok m₁) {x : Handler} (hx : x ∈ m.hset) : x ∈ m₁.hset := by
  rw [add_hset ha]
  by_cases hm : h ∈ m.hset <;> simp [hm, hx]

theorem add_hset_sub {m : MState} {h : Handler} {c : Option String} {m₁ : MState}
    (ha : add m h c = .ok m₁) {x : Handler} (hx : x ∈ m₁.hset) : x ∈ m.hset ∨ x = h := by
  rw [add_hset ha] at hx
  by_cases hm : h ∈ m.hset
  · rw [if_pos hm] at hx
    exact .inl hx
  · rw [if_neg hm] at hx
    rcases List.mem_append.mp hx with h₁ | h₁
    · exact .inl h₁
    · exact .inr (by simpa using h₁)

theorem add_hset_nodup {m : MState} {h : Handler} {c : Option String} {m₁ : MState}
    (ha : add m h c = .ok m₁) (hnd : m.hset.Nodup) : m₁.hset.Nodup := by
  rw [add_hset ha]
  by_cases hm : h ∈ m.hset
  · simpa [hm] using hnd
  · rw [if_neg hm]
    simpa [List.nodup_append] using ⟨hnd, hm⟩

theorem add_getList_self {m : MState} {h : Handler} {c : Option String} {m₁ : MState}
    (ha : add m h c = .ok m₁) :
    getList m₁ (c.getD "*") =
      (if h ∈ getList m (c.getD "*") then getList m (c.getD "*")
        else sortByType (getList m (c.getD "*") ++ [h])) := by
  rcases (add_cases ha).2.2.2 with ⟨l, he, hm, hch⟩ | ⟨l, he, hm, hch⟩ | ⟨he, hch⟩
  · have hl : getListR m.channels (c.getD "*") = l := by simp [getListR, he]
    simp [getList, hch, hl, hm]
  · have hl : getListR m.channels (c.getD "*") = l := by simp [getListR, he]
    simp only [getList, hch, hl]
    rw [getListR, lookupR_setR_self, Option.getD_some, if_neg hm]
  · have hl : getListR m.channels (c.getD "*") = [] := by simp [getListR, he]
    simp only [getList, hch, hl]
    rw [getListR, lookupR_append, he]
    simp [lookupR, sortByType, List.insertionSort, List.orderedInsert]

theorem add_mem_getList_self {m : MState} {h : Handler} {c : Option String} {m₁ : MState}
    (ha : add m h c = .ok m₁) : h ∈ getList m₁ (c.getD "*") := by
  rw [add_getList_self ha]
  by_cases hm : h ∈ getList m (c.getD "*")
  · simpa [hm] using hm
  · rw [if_neg hm, mem_sortByType]
    simp

theorem add_getList_other {m : MState} {h : Handler} {c : Option String} {m₁ : MState}
    (ha : add m h c = .ok m₁) {k : String} (hk : k ≠ c.getD "*") :
    getList m₁ k = getList m k := by
  rcases (add_cases ha).2.2.2 with ⟨l, _, _, hch⟩ | ⟨l, _, _, hch⟩ | ⟨he, hch⟩
  · rw [getList, getList, hch]
  · rw [getList, getList, hch, getListR, getListR, lookupR_setR_ne _ _ (Ne.symm hk)]
  · rw [getList, getList, hch, getListR, getListR, lookupR_append]
    cases h₂ : lookupR m.channels k with
    | some l => rfl
    | none => simp [lookupR, Ne.symm hk]

theorem add_getList_mono {m : MState} {h : Handler} {c : Option String} {m₁ : MState}
    (ha : add m h c = .ok m₁) {k : String} {x : Handler} (hx : x ∈ getList m k) :
    x ∈ getList m₁ k := by
  by_cases hk : k = c.getD "*"
  · subst hk
    rw [add_getList_self ha]
    by_cases hm : h ∈ getList m (c.getD "*")
    · simpa [hm] using hx
    · rw [if_neg hm, mem_sortByType]
      exact List.mem_append_left _ hx
  · rwa [add_getList_other ha hk]

theorem add_keysR {m : MState} {h : Handler} {c : Option String} {m₁ : MState}
    (ha : add m h c = .ok m₁) :
    keysR m₁.channels =
      (if (c.getD "*") ∈ keysR m.channels then keysR m.channels
        else keysR m.channels ++ [c.getD "*"]) := by
  rcases (add_cases ha).2.2.2 with ⟨l, he, _, hch⟩ | ⟨l, he, _, hch⟩ | ⟨he, hch⟩
  · have : (c.getD "*") ∈ keysR m.channels := lookupR_isSome_iff.mp (by simp [he])
    rw [hch, if_pos this]
  · have hmem : (c.getD "*") ∈ keysR m.channels := lookupR_isSome_iff.mp (by simp [he])
    rw [hch, keysR_setR_of_hasKey _ _ _ (by simp [hasKey, he]), if_pos hmem]
  · have hmem : (c.getD "*") ∉ keysR m.channels := not_mem_keys_of_lookupR_none he
    rw [hch, if_neg hmem]
    simp [keysR]

theorem regInv_add {m : MState} {h : Handler} {c : Option String} {m₁ : MState}
    (hi : RegInv m) (ha : add m h c = .ok m₁) : RegInv m₁ := by
  have hv := add_valid ha
  constructor
  · rw [add_keysR ha]
    by_cases hm : (c.getD "*") ∈ keysR m.channels
    · simpa [hm] using hi.keysNodup
    · rw [if_neg hm]
      simpa [List.nodup_append] using ⟨hi.keysNodup, hm⟩
  · intro kv hkv
    rcases (add_cases ha).2.2.2 with ⟨l, he, hm, hch⟩ | ⟨l, he, hm, hch⟩ | ⟨he, hch⟩
    · exact hi.listsNodup kv (hch ▸ hkv)
    · rw [hch] at hkv
      rcases mem_setR hkv with h₁ | h₁
      · exact hi.listsNodup kv h₁
      · rw [h₁]
        apply sortByType_nodup
        have hlnd : l.Nodup := hi.listsNodup (c.getD "*", l) (mem_of_lookupR he)
        simpa [List.nodup_append] using ⟨hlnd, hm⟩
    · rw [hch] at hkv
      rcases List.mem_append.mp hkv with h₁ | h₁
      · exact hi.listsNodup kv h₁
      · simp only [List.mem_singleton] at h₁
        rw [h₁]
        simp
  · intro kv hkv x hx
    rcases (add_cases ha).2.2.2 with ⟨l, he, hm, hch⟩ | ⟨l, he, hm, hch⟩ | ⟨he, hch⟩
    · exact hi.listsValid kv (hch ▸ hkv) x hx
    · rw [hch] at hkv
      rcases mem_setR hkv with h₁ | h₁
      · exact hi.listsValid kv h₁ x hx
      · rw [h₁] at hx
        simp only at hx
        rcases List.mem_append.mp (mem_sortByType.mp hx) with h₂ | h₂
        · exact hi.listsValid (c.getD "*", l) (mem_of_lookupR he) x h₂
        · simp only [List.mem_singleton] at h₂
          exact h₂ ▸ hv
    · rw [hch] at hkv
      rcases List.mem_append.mp hkv with h₁ | h₁
      · exact hi.listsValid kv h₁ x hx
      · simp only [List.mem_singleton] at h₁
        rw [h₁] at hx
        simp only [List.mem_singleton] at hx
        exact hx ▸ hv
  · intro kv hkv
    rcases (add_cases ha).2.2.2 with ⟨l, he, hm, hch⟩ | ⟨l, he, hm, hch⟩ | ⟨he, hch⟩
    · exact hi.listsSep kv (hch ▸ hkv)
    · rw [hch] at hkv
      rcases mem_setR hkv with h₁ | h₁
      · exact hi.listsSep kv h₁
      · rw [h₁]
        apply sortByType_sep
        intro x hx
        rcases List.mem_append.mp hx with h₂ | h₂
        · exact hi.listsValid (c.getD "*", l) (mem_of_lookupR he) x h₂
        · simp only [List.mem_singleton] at h₂
          exact h₂ ▸ hv
    · rw [hch] at hkv
      rcases List.mem_append.mp hkv with h₁ | h₁
      · exact hi.listsSep kv h₁
      · simp only [List.mem_singleton] at h₁
        rw [h₁]
        exact sep_singleton h
  · exact add_hset_nodup ha hi.hsetNodup

/-! ### Lemmas about `Manager.remove` -/

theorem removeStep_getList_self (r : Registry) (h : Handler) (k : String) :
    getListR (removeStep r h k) k = (getListR r k).erase h := by
  simp only [removeStep]
  rw [dgetR_snd]
  by_cases hm : h ∈ getListR r k
  · rw [if_pos hm, getListR, lookupR_setR_self, Option.getD_some]
  · rw [if_neg hm, getListR_dgetR_fst, List.erase_of_not_mem hm]

theorem removeStep_getList_other (r : Registry) (h : Handler) {k x : String} (hne : x ≠ k) :
    getListR (removeStep r h k) x = getListR r x := by
  simp only [removeStep]
  by_cases hm : h ∈ (dgetR r k).2
  · rw [if_pos hm, getListR, lookupR_setR_ne _ _ (Ne.symm hne)]
    rw [← getListR, getListR_dgetR_fst]
  · rw [if_neg hm, getListR_dgetR_fst]

theorem removeStep_getList_sub (r : Registry) (h : Handler) (k : String) {x : Handler}
    {y : String} (hx : x ∈ getListR (removeStep r h k) y) : x ∈ getListR r y := by
  by_cases hy : y = k
  · subst hy
    rw [removeStep_getList_self] at hx
    exact List.erase_subset _ _ hx
  · rwa [removeStep_getList_other r h hy] at hx

theorem removeStep_keysR (r : Registry) (h : Handler) (k : String) :
    keysR (removeStep r h k) = (if k ∈ keysR r then keysR r else keysR r ++ [k]) := by
  simp only [removeStep]
  by_cases hm : h ∈ (dgetR r k).2
  · rw [if_pos hm]
    have hmem : k ∈ keysR (dgetR r k).1 := by
      rw [dgetR_keysR]
      by_cases hk : k ∈ keysR r <;> simp [hk]
    rw [keysR_setR_of_hasKey _ _ _ (by
      have := lookupR_isSome_iff.mpr hmem
      simpa [hasKey] using this)]
    exact dgetR_keysR r k
  · rw [if_neg hm]
    exact dgetR_keysR r k

theorem removeKeys_getList_of_not_mem (h : Handler) (r : Registry) {ks : List String}
    {x : String} (hx : x ∉ ks) : getListR (removeKeys h r ks) x = getListR r x := by
  induction ks generalizing r with
  | nil => rfl
  | cons k ks ih =>
    rw [removeKeys]
    have hxk : x ≠ k := fun hcon => hx (hcon ▸ List.mem_cons_self k ks)
    rw [ih (removeStep r h k) (fun hm => hx (List.mem_cons_of_mem k hm)),
      removeStep_getList_other r h hxk]

theorem removeKeys_getList_of_mem (h : Handler) (r : Registry) {ks : List String}
    {x : String} (hnd : ks.Nodup) (hx : x ∈ ks) :
    getListR (removeKeys h r ks) x = (getListR r x).erase h := by
  induction ks generalizing r with
  | nil => cases hx
  | cons k ks ih =>
    rw [removeKeys]
    rw [List.nodup_cons] at hnd
    rcases List.mem_cons.mp hx with he | hm
    · subst he
      rw [removeKeys_getList_of_not_mem h _ hnd.1, removeStep_getList_self]
    · rw [ih (removeStep r h k) hnd.2 hm,
        removeStep_getList_other r h (fun hcon => hnd.1 (by rw [hcon] at hm; exact hm))]

theorem removeKeys_getList_sub (h : Handler) (r : Registry) (ks : List String) {x : Handler}
    {y : String} (hx : x ∈ getListR (removeKeys h r ks) y) : x ∈ getListR r y := by
  induction ks generalizing r with
  | nil => exact hx
  | cons k ks ih =>
    rw [removeKeys] at hx
    exact removeStep_getList_sub r h k (ih (removeStep r h k) hx)

theorem removeKeys_keysR (h : Handler) (r : Registry) {ks : List String}
    (hsub : ∀ k ∈ ks, k ∈ keysR r) : keysR (removeKeys h r ks) = keysR r := by
  induction ks generalizing r with
  | nil => rfl
  | cons k ks ih =>
    rw [removeKeys]
    have hk : k ∈ keysR r := hsub k (List.mem_cons_self k ks)
    have hkeys : keysR (removeStep r h k) = keysR r := by
      rw [removeStep_keysR, if_pos hk]
    rw [ih (removeStep r h k) (fun x hx => hkeys ▸ hsub x (List.mem_cons_of_mem k hx)), hkeys]

theorem removeStep_listProp (P : List Handler → Prop) {h : Handler} {r : Registry} (k : String)
    (hP : ∀ l, P l → P (l.erase h)) (hnil : P []) (hr : ∀ kv ∈ r, P kv.2) :
    ∀ kv ∈ removeStep r h k, P kv.2 := by
  have hviv : ∀ kv ∈ (dgetR r k).1, P kv.2 := by
    unfold dgetR
    cases he : lookupR r k with
    | some l => exact hr
    | none =>
      intro kv hkv
      rcases List.mem_append.mp hkv with hm | hm
      · exact hr kv hm
      · simp only [List.mem_singleton] at hm
        rw [hm]
        exact hnil
  have hval : P (dgetR r k).2 := by
    rw [dgetR_snd]
    cases he : lookupR r k with
    | some l =>
      have : getListR r k = l := by simp [getListR, he]
      rw [this]
      exact hr (k, l) (mem_of_lookupR he)
    | none =>
      have : getListR r k = [] := by simp [getListR, he]
      rw [this]
      exact hnil
  simp only [removeStep]
  by_cases hm : h ∈ (dgetR r k).2
  · rw [if_pos hm]
    intro kv hkv
    rcases mem_setR hkv with h₁ | h₁
    · exact hviv kv h₁
    · rw [h₁]
      exact hP _ hval
  · rw [if_neg hm]
    exact hviv

theorem removeKeys_listProp (P : List Handler → Prop) {h : Handler} {r : Registry}
    (ks : List String) (hP : ∀ l, P l → P (l.erase h)) (hnil : P [])
    (hr : ∀ kv ∈ r, P kv.2) : ∀ kv ∈ removeKeys h r ks, P kv.2 := by
  induction ks generalizing r with
  | nil => exact hr
  | cons k ks ih =>
    rw [removeKeys]
    exact ih (removeStep_listProp P k hP hnil hr)

theorem remove_queue (m : MState) (h : Handler) (c : Option String) :
    (remove m h c).queue = m.queue := by
  cases c <;> rfl

theorem remove_hset (m : MState) (h : Handler) (c : Option String) :
    (remove m h c).hset = (if h ∈ m.hset then m.hset.erase h else m.hset) := by
  cases c <;> rfl

theorem remove_hset_not_mem {m : MState} (hnd : m.hset.Nodup) (h : Handler) (c : Option String) :
    h ∉ (remove m h c).hset := by
  rw [remove_hset]
  by_cases hm : h ∈ m.hset
  · rw [if_pos hm]
    intro hcon
    exact ((hnd.mem_erase_iff).mp hcon).1 rfl
  · rw [if_neg hm]
    exact hm

theorem remove_hset_sub {m : MState} {h : Handler} {c : Option String} {x : Handler}
    (hx : x ∈ (remove m h c).hset) : x ∈ m.hset := by
  rw [remove_hset] at hx
  by_cases hm : h ∈ m.hset
  · rw [if_pos hm] at hx
    exact List.erase_subset _ _ hx
  · rwa [if_neg hm] at hx

theorem remove_hset_nodup {m : MState} (hnd : m.hset.Nodup) (h : Handler) (c : Option String) :
    (remove m h c).hset.Nodup := by
  rw [remove_hset]
  by_cases hm : h ∈ m.hset
  · rw [if_pos hm]
    exact hnd.erase h
  · rwa [if_neg hm]

theorem remove_getList_sub {m : MState} {h : Handler} {c : Option String} {x : Handler}
    {k : String} (hx : x ∈ getList (remove m h c) k) : x ∈ getList m k := by
  cases c with
  | none =>
    simp only [remove, getList] at hx ⊢
    have h₁ := removeKeys_getList_sub h _ _ hx
    by_cases hm : h ∈ (dgetR m.channels "*").2
    · rw [if_pos hm] at h₁
      by_cases hk : k = "*"
      · subst hk
        rw [getListR, lookupR_setR_self, Option.getD_some] at h₁
        have h₂ := List.erase_subset _ _ h₁
        rw [dgetR_snd] at h₂
        exact h₂
      · rw [getListR, lookupR_setR_ne _ _ (Ne.symm hk), ← getListR, getListR_dgetR_fst] at h₁
        exact h₁
    · rw [if_neg hm] at h₁
      rwa [getListR_dgetR_fst] at h₁
  | some c₀ =>
    simp only [remove, getList] at hx ⊢
    exact removeKeys_getList_sub h _ _ hx

theorem remove_some_getList_self (m : MState) (h : Handler) (c : String) :
    getList (remove m h (some c)) c = (getList m c).erase h := by
  simp only [remove, getList, removeKeys]
  exact removeStep_getList_self m.channels h c

theorem remove_some_getList_other (m : MState) (h : Handler) {c k : String} (hk : k ≠ c) :
    getList (remove m h (some c)) k = getList m k := by
  simp only [remove, getList, removeKeys]
  exact removeStep_getList_other m.channels h hk

theorem remove_none_getList (m : MState) (h : Handler) (hi : RegInv m) (k : String) :
    h ∉ getList (remove m h none) k := by
  simp only [remove, getList]
  set g := dgetR m.channels "*" with hg
  set r₁ := (if h ∈ g.2 then setR g.1 "*" (g.2.erase h) else g.1) with hr₁
  have hkeys₁ : keysR r₁ = keysR g.1 := by
    rw [hr₁]
    by_cases hm : h ∈ g.2
    · rw [if_pos hm]
      apply keysR_setR_of_hasKey
      have hmem : "*" ∈ keysR g.1 := by
        rw [hg, dgetR_keysR]
        by_cases hk : "*" ∈ keysR m.channels <;> simp [hk]
      have := lookupR_isSome_iff.mpr hmem
      simpa [hasKey] using this
    · rw [if_neg hm]
  have hknd : (keysR r₁).Nodup := by
    rw [hkeys₁, hg, dgetR_keysR]
    by_cases hk : "*" ∈ keysR m.channels
    · simpa [hk] using hi.keysNodup
    · rw [if_neg hk]
      simpa [List.nodup_append] using ⟨hi.keysNodup, hk⟩
  have hbase : ∀ x, (getListR m.channels x).Nodup := by
    intro x
    cases he : lookupR m.channels x with
    | some l =>
      have : getListR m.channels x = l := by simp [getListR, he]
      rw [this]
      exact hi.listsNodup (x, l) (mem_of_lookupR he)
    | none => simp [getListR, he]
  have hbase₁ : ∀ x, (getListR g.1 x).Nodup := by
    intro x
    rw [hg, getListR_dgetR_fst]
    exact hbase x
  have hstar : (g.2).Nodup := by
    rw [hg, dgetR_snd]
    exact hbase "*"
  have hlnd : ∀ x, (getListR r₁ x).Nodup := by
    intro x
    rw [hr₁]
    by_cases hm : h ∈ g.2
    · rw [if_pos hm]
      by_cases hx : x = "*"
      · subst hx
        rw [getListR, lookupR_setR_self, Option.getD_some]
        exact hstar.erase h
      · rw [getListR, lookupR_setR_ne _ _ (Ne.symm hx), ← getListR]
        exact hbase₁ x
    · rw [if_neg hm]
      exact hbase₁ x
  by_cases hk : k ∈ keysR r₁
  · rw [removeKeys_getList_of_mem h _ hknd hk]
    intro hcon
    exact (((hlnd k).mem_erase_iff).mp hcon).1 rfl
  · rw [removeKeys_getList_of_not_mem h _ hk]
    have : lookupR r₁ k = none := lookupR_eq_none_of_not_mem hk
    simp [getListR, this]

theorem dgetR_keysR_nodup {r : Registry} (hnd : (keysR r).Nodup) (x : String) :
    (keysR (dgetR r x).1).Nodup := by
  rw [dgetR_keysR]
  by_cases hk : x ∈ keysR r
  · simpa [hk] using hnd
  · rw [if_neg hk]
    simpa [List.nodup_append] using ⟨hnd, hk⟩

theorem remove_keysR_none (m : MState) (h : Handler) :
    keysR (remove m h none).channels = keysR (dgetR m.channels "*").1 := by
  simp only [remove]
  set g := dgetR m.channels "*" with hg
  set r₁ := (if h ∈ g.2 then setR g.1 "*" (g.2.erase h) else g.1) with hr₁
  have hkeys₁ : keysR r₁ = keysR g.1 := by
    rw [hr₁]
    by_cases hm : h ∈ g.2
    · rw [if_pos hm]
      apply keysR_setR_of_hasKey
      have hmem : "*" ∈ keysR g.1 := by
        rw [hg, dgetR_keysR]
        by_cases hk : "*" ∈ keysR m.channels <;> simp [hk]
      have := lookupR_isSome_iff.mpr hmem
      simpa [hasKey] using this
    · rw [if_neg hm]
  rw [removeKeys_keysR h _ (fun k hk => hk), hkeys₁]

theorem remove_keysR_some (m : MState) (h : Handler) (c : String) :
    keysR (remove m h (some c)).channels =
      (if c ∈ keysR m.channels then keysR m.channels else keysR m.channels ++ [c]) := by
  simp only [remove, removeKeys]
  exact removeStep_keysR m.channels h c

theorem remove_listProp (P : List Handler → Prop) {m : MState} {h : Handler}
    (hP : ∀ l, P l → P (l.erase h)) (hnil : P []) (hm : ∀ kv ∈ m.channels, P kv.2)
    (c : Option String) : ∀ kv ∈ (remove m h c).channels, P kv.2 := by
  cases c with
  | some c₀ =>
    simp only [remove]
    exact removeKeys_listProp P [c₀] hP hnil hm
  | none =>
    simp only [remove]
    apply removeKeys_listProp P _ hP hnil
    have hdget : ∀ kv ∈ (dgetR m.channels "*").1, P kv.2 := by
      unfold dgetR
      cases he : lookupR m.channels "*" with
      | some l => exact hm
      | none =>
        intro kv hkv
        rcases List.mem_append.mp hkv with h₁ | h₁
        · exact hm kv h₁
        · simp only [List.mem_singleton] at h₁
          rw [h₁]
          exact hnil
    by_cases hmem : h ∈ (dgetR m.channels "*").2
    · rw [if_pos hmem]
      intro kv hkv
      rcases mem_setR hkv with h₁ | h₁
      · exact hdget kv h₁
      · rw [h₁]
        apply hP
        rw [dgetR_snd]
        cases he : lookupR m.channels "*" with
        | some l =>
          have : getListR m.channels "*" = l := by simp [getListR, he]
          rw [this]
          exact hm ("*", l) (mem_of_lookupR he)
        | none =>
          have : getListR m.channels "*" = [] := by simp [getListR, he]
          rw [this]
          exact hnil
    · rw [if_neg hmem]
      exact hdget

theorem regInv_remove {m : MState} (hi : RegInv m) (h : Handler) (c : Option String) :
    RegInv (remove m h c) := by
  constructor
  · cases c with
    | none =>
      rw [remove_keysR_none]
      exact dgetR_keysR_nodup hi.keysNodup "*"
    | some c₀ =>
      rw [remove_keysR_some]
      by_cases hk : c₀ ∈ keysR m.channels
      · simpa [hk] using hi.keysNodup
      · rw [if_neg hk]
        simpa [List.nodup_append] using ⟨hi.keysNodup, hk⟩
  · exact remove_listProp (fun l => l.Nodup) (fun l hl => hl.erase h) List.nodup_nil
      hi.listsNodup c
  · exact remove_listProp (fun l => ∀ x ∈ l, validType x)
      (fun l hl x hx => hl x (List.erase_subset _ _ hx)) (by intro x hx; cases hx)
      hi.listsValid c
  · exact remove_listProp Sep (fun l hl => sep_erase hl h) sep_nil hi.listsSep c
  · exact remove_hset_nodup hi.hsetNodup h c

theorem regInv_init : RegInv initM := by
  constructor
  · simp [initM, keysR]
  · intro kv hkv
    cases hkv
  · intro kv hkv
    cases hkv
  · intro kv hkv
    cases hkv
  · simp [initM]

theorem reachAR_regInv {m : MState} (hr : ReachAR m) : RegInv m := by
  induction hr with
  | init => exact regInv_init
  | ofAdd _ ha ih => exact regInv_add ih ha
  | ofRemove h c _ ih => exact regInv_remove ih h c

/-! ### Lemmas about `Manager.handlers` (resolution) -/

theorem getListR_append_empty {extra : Registry} (hempty : ∀ kv ∈ extra, kv.2 = [])
    (r : Registry) (k : String) : getListR (r ++ extra) k = getListR r k := by
  rw [getListR, getListR, lookupR_append]
  cases he : lookupR r k with
  | some l => rfl
  | none =>
    cases h₂ : lookupR extra k with
    | none => rfl
    | some l =>
      have := hempty (k, l) (mem_of_lookupR h₂)
      simp at this
      simp [this]

theorem dgetR_fst_extends (r : Registry) (x : String) :
    ∃ extra, (dgetR r x).1 = r ++ extra ∧ ∀ kv ∈ extra, kv.2 = [] := by
  unfold dgetR
  cases lookupR r x with
  | some l => exact ⟨[], by simp⟩
  | none =>
    refine ⟨[(x, [])], rfl, ?_⟩
    intro kv hkv
    simp only [List.mem_singleton] at hkv
    rw [hkv]

theorem flattenFilter_append (r₁ r₂ : Registry) (p : String × List Handler → Bool) :
    (((r₁ ++ r₂).filter p).map (·.2)).flatten =
      ((r₁.filter p).map (·.2)).flatten ++ ((r₂.filter p).map (·.2)).flatten := by
  rw [List.filter_append, List.map_append, List.flatten_append]

theorem flattenFilter_empty {extra : Registry} (hempty : ∀ kv ∈ extra, kv.2 = [])
    (p : String × List Handler → Bool) : ((extra.filter p).map (·.2)).flatten = [] := by
  apply List.flatten_eq_nil_iff.mpr
  intro l hl
  rcases List.mem_map.mp hl with ⟨kv, hkv, he⟩
  rw [← he]
  exact hempty kv (List.mem_of_mem_filter hkv)

theorem mem_flattenFilter {r : Registry} {p : String × List Handler → Bool} {k : String}
    {l : List Handler} {x : Handler} (hm : (k, l) ∈ r) (hp : p (k, l) = true) (hx : x ∈ l) :
    x ∈ ((r.filter p).map (·.2)).flatten := by
  apply List.mem_flatten.mpr
  exact ⟨l, List.mem_map.mpr ⟨(k, l), List.mem_filter.mpr ⟨hm, hp⟩, rfl⟩, hx⟩

theorem handlersM_fst_queue (m : MState) (s : String) : (handlersM m s).1.queue = m.queue := by
  simp only [handlersM]
  split
  · rfl
  split
  · rfl
  split
  · rfl
  · rfl

theorem handlersM_fst_hset (m : MState) (s : String) : (handlersM m s).1.hset = m.hset := by
  simp only [handlersM]
  split
  · rfl
  split
  · rfl
  split
  · rfl
  · rfl

theorem handlersM_fst_getList (m : MState) (s : String) (k : String) :
    getList (handlersM m s).1 k = getList m k := by
  simp only [handlersM, getList]
  split
  · exact getListR_dgetR_fst m.channels "*" k
  split
  · exact getListR_dgetR_fst m.channels "*" k
  split
  · exact getListR_dgetR_fst m.channels "*" k
  · rw [getListR_dgetR_fst, getListR_dgetR_fst, getListR_dgetR_fst]

theorem handlersM_fst_channels (m : MState) (s : String) :
    ∃ extra, (handlersM m s).1.channels = m.channels ++ extra ∧ ∀ kv ∈ extra, kv.2 = [] := by
  simp only [handlersM]
  obtain ⟨e₁, he₁, hemp₁⟩ := dgetR_fst_extends m.channels "*"
  split
  · exact ⟨e₁, he₁, hemp₁⟩
  split
  · exact ⟨e₁, he₁, hemp₁⟩
  split
  · exact ⟨e₁, he₁, hemp₁⟩
  · obtain ⟨e₂, he₂, hemp₂⟩ :=
      dgetR_fst_extends (dgetR m.channels "*").1 (fmtOpt (splitTarget s).1 ++ ":*")
    obtain ⟨e₃, he₃, hemp₃⟩ :=
      dgetR_fst_extends (dgetR (dgetR m.channels "*").1 (fmtOpt (splitTarget s).1 ++ ":*")).1 s
    refine ⟨e₁ ++ e₂ ++ e₃, ?_, ?_⟩
    · rw [he₃, he₂, he₁]
      simp [List.append_assoc]
    · intro kv hkv
      rcases List.mem_append.mp hkv with h₁ | h₁
      · rcases List.mem_append.mp h₁ with h₂ | h₂
        · exact hemp₁ kv h₂
        · exact hemp₂ kv h₂
      · exact hemp₃ kv h₁

theorem regInv_handlersM {m : MState} (hi : RegInv m) (s : String) :
    RegInv (handlersM m s).1 := by
  obtain ⟨extra, hch, hemp⟩ := handlersM_fst_channels m s
  have hkeys : (keysR (handlersM m s).1.channels).Nodup := by
    simp only [handlersM]
    split
    · exact dgetR_keysR_nodup hi.keysNodup "*"
    split
    · exact dgetR_keysR_nodup hi.keysNodup "*"
    split
    · exact dgetR_keysR_nodup hi.keysNodup "*"
    · exact dgetR_keysR_nodup (dgetR_keysR_nodup (dgetR_keysR_nodup hi.keysNodup "*") _) s
  constructor
  · exact hkeys
  · intro kv hkv
    rw [hch] at hkv
    rcases List.mem_append.mp hkv with h₁ | h₁
    · exact hi.listsNodup kv h₁
    · rw [hemp kv h₁]
      exact List.nodup_nil
  · intro kv hkv
    rw [hch] at hkv
    rcases List.mem_append.mp hkv with h₁ | h₁
    · exact hi.listsValid kv h₁
    · rw [hemp kv h₁]
      intro x hx
      cases hx
  · intro kv hkv
    rw [hch] at hkv
    rcases List.mem_append.mp hkv with h₁ | h₁
    · exact hi.listsSep kv h₁
    · rw [hemp kv h₁]
      exact sep_nil
  · rw [handlersM_fst_hset]
    exact hi.hsetNodup

/-! ### Dispatch loop and flush lemmas -/

/-- The handler does not stop dispatch: its captured return value is falsy
or it is not a filter. -/
def noStop (h : Handler) : Bool := ! (h.ret && (h.type == "filter"))

theorem runLoop_eq (l : List Handler) :
    runLoop l = l.takeWhile noStop ++ (l.dropWhile noStop).take 1 := by
  induction l with
  | nil => rfl
  | cons h rest ih =>
    by_cases hc : h.ret ∧ h.type = "filter"
    · have hb : noStop h = false := by simp [noStop, hc.1, hc.2]
      rw [runLoop, if_pos hc, List.takeWhile_cons, List.dropWhile_cons]
      simp [hb]
    · have hb : noStop h = true := by
        rcases not_and_or.mp hc with h₁ | h₁ <;> simp [noStop, h₁]
      rw [runLoop, if_neg hc, List.takeWhile_cons, List.dropWhile_cons]
      simp [hb, ih]

theorem sendRoot_fst_queue (m : MState) (e : Event) (c : String) (t : Option String) :
    (sendRoot m e c t).1.queue = m.queue := handlersM_fst_queue m (sendKey c t)

theorem sendRoot_fst_hset (m : MState) (e : Event) (c : String) (t : Option String) :
    (sendRoot m e c t).1.hset = m.hset := handlersM_fst_hset m (sendKey c t)

theorem sendRoot_fst_getList (m : MState) (e : Event) (c : String) (t : Option String)
    (k : String) : getList (sendRoot m e c t).1 k = getList m k :=
  handlersM_fst_getList m (sendKey c t) k

theorem drainLoop_snd (m : MState) (l : List Event) :
    (drainLoop m l).2 = l.map (fun e => stampE e (fmtOpt e.channel) e.target) := by
  induction l generalizing m with
  | nil => rfl
  | cons e rest ih => simp [drainLoop, ih]

theorem drainLoop_fst_queue (m : MState) (l : List Event) :
    (drainLoop m l).1.queue = m.queue := by
  induction l generalizing m with
  | nil => rfl
  | cons e rest ih =>
    simp only [drainLoop]
    rw [ih, sendRoot_fst_queue]

/-- C2: during one `send` on a root manager, the resolved handlers are
invoked in sequence order; the invoked handlers are exactly the longest
prefix of the resolved sequence containing no truthy-returning filter,
plus the first truthy-returning filter itself when one exists.  In
particular a truthy listener or a falsy filter never stops dispatch, and
a truthy filter stops it immediately. -/
theorem send_filter_short_circuit (m : MState) (e : Event) (c : String) (t : Option String) :
    (sendRoot m e c t).2 =
      (resolvedList m (sendKey c t)).takeWhile noStop
        ++ ((resolvedList m (sendKey c t)).dropWhile noStop).take 1 := by
  unfold sendRoot resolvedList
  exact runLoop_eq _

/-- C3: one `flush` on a root manager first swaps in a fresh empty queue,
then dispatches every event of the swapped-out queue exactly once, in
reverse of push order; pushing `E1`, `E2`, `E3` and flushing dispatches
`E3`, `E2`, `E1`. -/
theorem flush_lifo_order (m : MState) (e₁ e₂ e₃ : Event) (c₁ c₂ c₃ : String)
    (t₁ t₂ t₃ : Option String) :
    (flushRoot m).2 = m.queue.reverse.map (fun e => stampE e (fmtOpt e.channel) e.target)
    ∧ (flushRoot m).1.queue = []
    ∧ (flushRoot (pushRoot (pushRoot (pushRoot { m with queue := [] } e₁ c₁ t₁)
          e₂ c₂ t₂) e₃ c₃ t₃)).2 =
        [stampE e₃ c₃ t₃, stampE e₂ c₂ t₂, stampE e₁ c₁ t₁] := by
  refine ⟨drainLoop_snd _ _, drainLoop_fst_queue _ _, ?_⟩
  simp [flushRoot, pushRoot, drainLoop_snd, stampE, fmtOpt]

/-- C8: `add` is idempotent per (handler, channel) pair: on a reachable
manager state, a second identical `add` returns the state unchanged, and
the channel holds exactly one occurrence of the handler. -/
theorem add_idempotent {m : MState} {h : Handler} {c : Option String} {m₁ : MState}
    (hr : ReachAR m) (ha : add m h c = .ok m₁) :
    add m₁ h c = .ok m₁ ∧ (getList m₁ (c.getD "*")).count h = 1 := by
  have hv := add_valid ha
  have hr₁ : ReachAR m₁ := .ofAdd hr ha
  have hi₁ : RegInv m₁ := reachAR_regInv hr₁
  have hmem : h ∈ getList m₁ (c.getD "*") := add_mem_getList_self ha
  obtain ⟨l₁, hl₁, hml₁⟩ : ∃ l₁, lookupR m₁.channels (c.getD "*") = some l₁ ∧ h ∈ l₁ := by
    cases he : lookupR m₁.channels (c.getD "*") with
    | none =>
      rw [getList, getListR, he] at hmem
      cases hmem
    | some l =>
      refine ⟨l, rfl, ?_⟩
      rw [getList, getListR, he] at hmem
      exact hmem
  constructor
  · have hv₀ : h.type = "filter" ∨ h.type = "listener" := hv
    simp only [add, if_pos hv₀, hl₁, if_pos hml₁, if_pos (add_mem_hset ha)]
  · have hnd : l₁.Nodup := hi₁.listsNodup (c.getD "*", l₁) (mem_of_lookupR hl₁)
    have : getList m₁ (c.getD "*") = l₁ := by simp [getList, getListR, hl₁]
    rw [this] at hmem ⊢
    exact List.count_eq_one_of_mem hnd hmem

/-- Witness for C8 at a concrete input. -/
theorem add_idempotent_witness :
    add ⟨[], [hWL], [("c", [hWL])]⟩ hWL (some "c") = .ok ⟨[], [hWL], [("c", [hWL])]⟩
    ∧ (getList ⟨[], [hWL], [("c", [hWL])]⟩ "c").count hWL = 1 :=
  @add_idempotent initM hWL (some "c") ⟨[], [hWL], [("c", [hWL])]⟩ ReachAR.init (by rfl)

theorem removeStep_id {r : Registry} {h : Handler} {k : String} (hk : k ∈ keysR r)
    (hm : h ∉ getListR r k) : removeStep r h k = r := by
  obtain ⟨l, hl, hgl⟩ := getListR_eq_of_mem_keys hk
  simp only [removeStep, dgetR, hl]
  rw [hgl] at hm
  rw [if_neg hm]

theorem removeKeys_id {r : Registry} {h : Handler} {ks : List String}
    (hks : ∀ k ∈ ks, k ∈ keysR r) (hm : ∀ k, h ∉ getListR r k) : removeKeys h r ks = r := by
  induction ks with
  | nil => rfl
  | cons k ks ih =>
    rw [removeKeys, removeStep_id (hks k (List.mem_cons_self k ks)) (hm k)]
    exact ih (fun x hx => hks x (List.mem_cons_of_mem k hx))

/-- C9: `remove` is total (the embedding returns a state for every input;
the source guards every `list.remove`/`set.remove` with a membership test
and uses only auto-vivifying registry subscripts, so no exception path
exists).  With the channel omitted it removes the handler from the
global channel and from every registry key; with a channel given it
erases the handler from exactly that channel, leaving every other key's
list unchanged; in both cases the handler leaves the global handler set,
and repeating the same `remove` changes nothing. -/
theorem remove_never_fails (m : MState) (h : Handler) (hi : RegInv m) :
    (h ∉ (remove m h none).hset ∧ (∀ k, h ∉ getList (remove m h none) k)
      ∧ remove (remove m h none) h none = remove m h none)
    ∧ (∀ c, h ∉ (remove m h (some c)).hset
        ∧ getList (remove m h (some c)) c = (getList m c).erase h
        ∧ (∀ k, k ≠ c → getList (remove m h (some c)) k = getList m k)
        ∧ remove (remove m h (some c)) h (some c) = remove m h (some c)) := by
  constructor
  · refine ⟨remove_hset_not_mem hi.hsetNodup h none, remove_none_getList m h hi, ?_⟩
    set m₁ := remove m h none with hm₁
    have hgone : ∀ k, h ∉ getList m₁ k := remove_none_getList m h hi
    have hstar : "*" ∈ keysR m₁.channels := by
      rw [hm₁, remove_keysR_none, dgetR_keysR]
      by_cases hk : "*" ∈ keysR m.channels <;> simp [hk]
    have hhs : h ∉ m₁.hset := remove_hset_not_mem hi.hsetNodup h none
    show remove m₁ h none = m₁
    simp only [remove]
    obtain ⟨g₁, hg₁, hgl₁⟩ := getListR_eq_of_mem_keys hstar
    have hdg : dgetR m₁.channels "*" = (m₁.channels, g₁) := by simp [dgetR, hg₁]
    rw [hdg]
    have hng : h ∉ g₁ := by
      have := hgone "*"
      rw [getList, hgl₁] at this
      exact this
    rw [if_neg hng, if_neg hhs]
    rw [removeKeys_id (fun k hk => hk) (fun k => by
      have := hgone k
      rwa [getList] at this)]
  · intro c
    refine ⟨remove_hset_not_mem hi.hsetNodup h (some c), remove_some_getList_self m h c,
      fun k hk => remove_some_getList_other m h hk, ?_⟩
    set m₁ := remove m h (some c) with hm₁
    have hkmem : c ∈ keysR m₁.channels := by
      rw [hm₁, remove_keysR_some]
      by_cases hk : c ∈ keysR m.channels <;> simp [hk]
    have hng : h ∉ getListR m₁.channels c := by
      have h₁ : getList m₁ c = (getList m c).erase h := remove_some_getList_self m h c
      have h₂ : ((getList m c).erase h).count h = 0 := by
        by_cases hm : h ∈ getList m c
        · have hnd : (getList m c).Nodup := by
            cases he : lookupR m.channels c with
            | some l =>
              have : getList m c = l := by simp [getList, getListR, he]
              rw [this]
              exact hi.listsNodup (c, l) (mem_of_lookupR he)
            | none => simp [getList, getListR, he]
          rw [List.count_erase_self, List.count_eq_one_of_mem hnd hm]
        · rw [List.erase_of_not_mem hm]
          exact List.count_eq_zero.mpr hm
      intro hcon
      have hmem₁ : h ∈ getList m₁ c := hcon
      rw [h₁] at hmem₁
      have := List.count_pos_iff.mpr hmem₁
      omega
    have hhs : h ∉ m₁.hset := remove_hset_not_mem hi.hsetNodup h (some c)
    show remove m₁ h (some c) = m₁
    simp only [remove, removeKeys]
    rw [removeStep_id hkmem hng, if_neg hhs]

/-- Witness for C9 at a concrete input. -/
theorem remove_never_fails_witness :
    (hWL ∉ (remove mW hWL none).hset ∧ (∀ k, hWL ∉ getList (remove mW hWL none) k)
      ∧ remove (remove mW hWL none) hWL none = remove mW hWL none)
    ∧ (∀ c, hWL ∉ (remove mW hWL (some c)).hset
        ∧ getList (remove mW hWL (some c)) c = (getList mW c).erase hWL
        ∧ (∀ k, k ≠ c → getList (remove mW hWL (some c)) k = getList mW k)
        ∧ remove (remove mW hWL (some c)) hWL (some c) = remove mW hWL (some c)) :=
  remove_never_fails mW hWL
    ⟨by decide, by decide, by decide, by decide, by decide⟩

/-- C7: in every registry state reachable by `add`/`remove` from a fresh
manager, every channel list keeps all `"filter"`-type handlers before all
`"listener"`-type handlers; and the re-sort performed by `add` is stable,
so handlers of equal type stay in insertion order (the subsequence of
each type is preserved exactly by the sort). -/
theorem registry_order_invariant {m : MState} (hr : ReachAR m) :
    (∀ kv ∈ m.channels, Sep kv.2)
    ∧ (∀ t : String, ∀ l : List Handler,
        (sortByType l).filter (fun h0 => h0.type == t) = l.filter (fun h0 => h0.type == t)) :=
  ⟨(reachAR_regInv hr).listsSep, fun t l => sortByType_filter_type t l⟩

/-- Witness for C7 at a concrete reachable state: a listener added before
a filter on channel `"c"`, where the sort has moved the filter first. -/
theorem registry_order_invariant_witness :
    (∀ kv ∈ (⟨[], [hWL, hWF], [("c", [hWF, hWL])]⟩ : MState).channels, Sep kv.2)
    ∧ (∀ t : String, ∀ l : List Handler,
        (sortByType l).filter (fun h0 => h0.type == t) = l.filter (fun h0 => h0.type == t)) :=
  registry_order_invariant
    (@ReachAR.ofAdd ⟨[], [hWL], [("c", [hWL])]⟩ hWF (some "c")
      ⟨[], [hWL, hWF], [("c", [hWF, hWL])]⟩
      (@ReachAR.ofAdd initM hWL (some "c") ⟨[], [hWL], [("c", [hWL])]⟩ ReachAR.init (by rfl))
      (by rfl))

theorem handlersM_snd_star_star (m : MState) {s : String}
    (hsp : splitTarget s = (some "*", "*")) : (handlersM m s).2 = m.hset := by
  simp [handlersM, hsp]

theorem handlersM_snd_else (m : MState) {s : String} {tOpt : Option String} {c : String}
    (hsp : splitTarget s = (tOpt, c)) (ht : tOpt ≠ some "*") (hc : c ≠ "*") :
    (handlersM m s).2 = getList m "*" ++ getList m (fmtOpt tOpt ++ ":*") ++ getList m s := by
  simp only [handlersM, hsp]
  rw [if_neg (fun hcon => ht hcon.1), if_neg ht, if_neg hc]
  rw [dgetR_snd, dgetR_snd, dgetR_snd]
  rw [getListR_dgetR_fst, getListR_dgetR_fst, getListR_dgetR_fst]
  rfl

theorem handlersM_snd_target_star (m : MState) {s c : String}
    (hsp : splitTarget s = (some "*", c)) (hc : c ≠ "*") :
    (handlersM m s).2 = getList m "*" ++
      ((m.channels.filter (fun kv => kv.1 == c || strEndsWith kv.1 (":" ++ c))).map
        (·.2)).flatten := by
  simp only [handlersM]
  rw [hsp]
  rw [if_neg (show ¬((some "*", c).1 = some "*" ∧ (some "*", c).2 = "*") from
    fun hcon => hc hcon.2)]
  rw [if_pos (show (some "*", c).1 = some "*" from rfl)]
  rw [dgetR_snd]
  obtain ⟨extra, hext, hemp⟩ := dgetR_fst_extends m.channels "*"
  rw [hext, flattenFilter_append, flattenFilter_empty hemp, List.append_nil]
  rfl

theorem handlersM_snd_chan_star (m : MState) {s : String} {tOpt : Option String}
    (hsp : splitTarget s = (tOpt, "*")) (ht : tOpt ≠ some "*") :
    (handlersM m s).2 = getList m "*" ++
      ((m.channels.filter (fun kv =>
          strStartsWith kv.1 (fmtOpt tOpt ++ ":") || ! strContains kv.1 ':')).map
        (·.2)).flatten := by
  simp only [handlersM]
  rw [hsp]
  rw [if_neg (show ¬((tOpt, "*").1 = some "*" ∧ (tOpt, "*").2 = "*") from
    fun hcon => ht hcon.1)]
  rw [if_neg (show ¬(tOpt, "*").1 = some "*" from ht)]
  rw [if_pos (show ((tOpt, "*") : Option String × String).2 = "*" from rfl)]
  rw [dgetR_snd]
  obtain ⟨extra, hext, hemp⟩ := dgetR_fst_extends m.channels "*"
  rw [hext, flattenFilter_append, flattenFilter_empty hemp, List.append_nil]
  rfl

theorem mem_getList_exists_lookup {m : MState} {k : String} {h : Handler}
    (hm : h ∈ getList m k) : ∃ l, lookupR m.channels k = some l ∧ h ∈ l := by
  cases he : lookupR m.channels k with
  | none =>
    rw [getList, getListR, he] at hm
    cases hm
  | some l =>
    refine ⟨l, rfl, ?_⟩
    rw [getList, getListR, he] at hm
    exact hm

/-- C1: the four-way wildcard matching contract of channel resolution.  A
handler added on the global channel is resolved for every string; a
handler added on `"a:*"` is resolved for `"a:x"` and `"a:y"` but (from a
fresh manager) not for `"b:x"`; a handler added on plain `"x"` is
resolved for `"*:x"` and for `"x"`. -/
theorem wildcard_resolution (m : MState) (h : Handler) (hv : validType h) :
    (∀ m₁, add m h none = .ok m₁ → ∀ s, h ∈ resolvedList m₁ s)
    ∧ (∀ m₁, add m h (some "a:*") = .ok m₁ →
        h ∈ resolvedList m₁ "a:x" ∧ h ∈ resolvedList m₁ "a:y")
    ∧ (∀ m₁, add initM h (some "a:*") = .ok m₁ → h ∉ resolvedList m₁ "b:x")
    ∧ (∀ m₁, add m h (some "x") = .ok m₁ →
        h ∈ resolvedList m₁ "*:x" ∧ h ∈ resolvedList m₁ "x") := by
  refine ⟨?_, ?_, ?_, ?_⟩
  · intro m₁ ha s
    have hg : h ∈ (dgetR m₁.channels "*").2 := by
      rw [dgetR_snd]
      exact add_mem_getList_self ha
    simp only [resolvedList, handlersM]
    split
    · exact add_mem_hset ha
    split
    · exact List.mem_append_left _ hg
    split
    · exact List.mem_append_left _ hg
    · exact List.mem_append_left _ (List.mem_append_left _ hg)
  · intro m₁ ha
    have hx : h ∈ getList m₁ "a:*" := add_mem_getList_self ha
    constructor
    · rw [resolvedList, handlersM_snd_else m₁ (by rfl : splitTarget "a:x" = (some "a", "x"))
        (by decide) (by decide)]
      exact List.mem_append_left _ (List.mem_append_right _ hx)
    · rw [resolvedList, handlersM_snd_else m₁ (by rfl : splitTarget "a:y" = (some "a", "y"))
        (by decide) (by decide)]
      exact List.mem_append_left _ (List.mem_append_right _ hx)
  · intro m₁ ha
    have hch : m₁.channels = [("a:*", [h])] := by
      rcases (add_cases ha).2.2.2 with ⟨l, he, _, _⟩ | ⟨l, he, _, hch⟩ | ⟨he, hch⟩
      · cases he
      · cases he
      · exact hch
    rw [resolvedList, handlersM_snd_else m₁ (by rfl : splitTarget "b:x" = (some "b", "x"))
      (by decide) (by decide)]
    have h₁ : getList m₁ "*" = [] := by
      rw [getList, hch, getListR, lookupR, if_neg (by decide), lookupR]
      rfl
    have h₂ : getList m₁ (fmtOpt (some "b") ++ ":*") = [] := by
      rw [getList, hch, getListR, lookupR, if_neg (by decide), lookupR]
      rfl
    have h₃ : getList m₁ "b:x" = [] := by
      rw [getList, hch, getListR, lookupR, if_neg (by decide), lookupR]
      rfl
    rw [h₁, h₂, h₃]
    simp
  · intro m₁ ha
    have hx : h ∈ getList m₁ "x" := add_mem_getList_self ha
    constructor
    · rw [resolvedList, handlersM_snd_target_star m₁
        (by rfl : splitTarget "*:x" = (some "*", "x")) (by decide)]
      obtain ⟨l, hl, hml⟩ := mem_getList_exists_lookup hx
      refine List.mem_append_right _ ?_
      exact mem_flattenFilter (mem_of_lookupR hl) rfl hml
    · rw [resolvedList, handlersM_snd_else m₁ (by rfl : splitTarget "x" = (none, "x"))
        (by decide) (by decide)]
      exact List.mem_append_right _ hx

/-- Witness for C1 at a concrete handler. -/
theorem wildcard_resolution_witness :
    (∀ m₁, add initM hWL2 none = .ok m₁ → ∀ s, hWL2 ∈ resolvedList m₁ s)
    ∧ (∀ m₁, add initM hWL2 (some "a:*") = .ok m₁ →
        hWL2 ∈ resolvedList m₁ "a:x" ∧ hWL2 ∈ resolvedList m₁ "a:y")
    ∧ (∀ m₁, add initM hWL2 (some "a:*") = .ok m₁ → hWL2 ∉ resolvedList m₁ "b:x")
    ∧ (∀ m₁, add initM hWL2 (some "x") = .ok m₁ →
        hWL2 ∈ resolvedList m₁ "*:x" ∧ hWL2 ∈ resolvedList m₁ "x") :=
  wildcard_resolution initM hWL2 (Or.inr rfl)

theorem resolvedList_extends {m m₂ : MState} {extra : Registry}
    (hh : m₂.hset = m.hset) (hch : m₂.channels = m.channels ++ extra)
    (hempty : ∀ kv ∈ extra, kv.2 = []) (s : String) :
    resolvedList m₂ s = resolvedList m s := by
  have hgl : ∀ k, getList m₂ k = getList m k := by
    intro k
    rw [getList, hch]
    exact getListR_append_empty hempty m.channels k
  rcases hps : splitTarget s with ⟨tOpt, c⟩
  by_cases ht : tOpt = some "*"
  · subst ht
    by_cases hc : c = "*"
    · subst hc
      rw [resolvedList, resolvedList, handlersM_snd_star_star m₂ hps,
        handlersM_snd_star_star m hps, hh]
    · rw [resolvedList, resolvedList, handlersM_snd_target_star m₂ hps hc,
        handlersM_snd_target_star m hps hc, hgl "*", hch, flattenFilter_append,
        flattenFilter_empty hempty, List.append_nil]
  · by_cases hc : c = "*"
    · subst hc
      rw [resolvedList, resolvedList, handlersM_snd_chan_star m₂ hps ht,
        handlersM_snd_chan_star m hps ht, hgl "*", hch, flattenFilter_append,
        flattenFilter_empty hempty, List.append_nil]
    · rw [resolvedList, resolvedList, handlersM_snd_else m₂ hps ht hc,
        handlersM_snd_else m hps ht hc, hgl "*", hgl (fmtOpt tOpt ++ ":*"), hgl s]

theorem add_extensional {m m₂ : MState} (hh : m₂.hset = m.hset) (hq : m₂.queue = m.queue)
    (hgl : ∀ k, getList m₂ k = getList m k) {h : Handler} {c : Option String}
    {m₃ m₄ : MState} (ha₂ : add m₂ h c = .ok m₃) (ha : add m h c = .ok m₄) :
    m₃.hset = m₄.hset ∧ m₃.queue = m₄.queue ∧ ∀ k, getList m₃ k = getList m₄ k := by
  refine ⟨?_, ?_, ?_⟩
  · rw [add_hset ha₂, add_hset ha, hh]
  · rw [add_queue ha₂, add_queue ha, hq]
  · intro k
    by_cases hk : k = c.getD "*"
    · subst hk
      rw [add_getList_self ha₂, add_getList_self ha, hgl (c.getD "*")]
    · rw [add_getList_other ha₂ hk, add_getList_other ha hk, hgl k]

/-- C10: channel resolution is not read-only.  On a manager whose
registry lacks the queried keys, `handlers (t ++ ":" ++ c)` (concrete
target and channel) appends empty-list entries for `"*"`, `t ++ ":*"` and
the full key, in that order; `Manager.__getitem__` likewise vivifies a
missing key.  The empty entries change neither later resolution results
nor the observable effect (handler set, queue, and per-key lists) of a
later `add`. -/
theorem resolution_vivification (m : MState) (s t c : String)
    (hsp : splitTarget s = (some t, c)) (ht : t ≠ "*") (hc : c ≠ "*")
    (h₁ : lookupR m.channels "*" = none) (h₂ : lookupR m.channels (t ++ ":*") = none)
    (h₃ : lookupR m.channels s = none) (hd₁ : t ++ ":*" ≠ "*") (hd₂ : s ≠ "*")
    (hd₃ : s ≠ t ++ ":*") :
    (handlersM m s).1.channels = m.channels ++ [("*", []), (t ++ ":*", []), (s, [])]
    ∧ (∀ x, lookupR m.channels x = none →
        (getitemM m x).1.channels = m.channels ++ [(x, [])] ∧ (getitemM m x).2 = [])
    ∧ (∀ s₂, resolvedList (handlersM m s).1 s₂ = resolvedList m s₂)
    ∧ (∀ h c₂ m₃ m₄, add (handlersM m s).1 h c₂ = .ok m₃ → add m h c₂ = .ok m₄ →
        m₃.hset = m₄.hset ∧ m₃.queue = m₄.queue ∧ ∀ k, getList m₃ k = getList m₄ k) := by
  have e₁ : dgetR m.channels "*" = (m.channels ++ [("*", [])], []) := by
    simp [dgetR, h₁]
  have l₂ : lookupR (m.channels ++ [("*", [])]) (t ++ ":*") = none := by
    rw [lookupR_append, h₂]
    simp [lookupR, Ne.symm hd₁]
  have e₂ : dgetR (m.channels ++ [("*", [])]) (t ++ ":*") =
      (m.channels ++ [("*", []), (t ++ ":*", [])], []) := by
    simp [dgetR, l₂]
  have l₃ : lookupR (m.channels ++ [("*", []), (t ++ ":*", [])]) s = none := by
    rw [lookupR_append, h₃]
    simp [lookupR, Ne.symm hd₂, Ne.symm hd₃]
  have e₃ : dgetR (m.channels ++ [("*", []), (t ++ ":*", [])]) s =
      (m.channels ++ [("*", []), (t ++ ":*", []), (s, [])], []) := by
    simp [dgetR, l₃]
  have hchannels :
      (handlersM m s).1.channels = m.channels ++ [("*", []), (t ++ ":*", []), (s, [])] := by
    simp only [handlersM]
    rw [hsp]
    rw [if_neg (show ¬((some t, c).1 = some "*" ∧ (some t, c).2 = "*") from
      fun hcon => hc hcon.2)]
    rw [if_neg (show ¬(some t, c).1 = some "*" from fun hcon => ht (Option.some_inj.mp hcon))]
    rw [if_neg (show ¬((some t, c) : Option String × String).2 = "*" from hc)]
    show (dgetR (dgetR (dgetR m.channels "*").1 (fmtOpt (some t) ++ ":*")).1 s).1 = _
    rw [e₁]
    show (dgetR (dgetR (m.channels ++ [("*", [])]) (t ++ ":*")).1 s).1 = _
    rw [e₂]
    show (dgetR (m.channels ++ [("*", []), (t ++ ":*", [])]) s).1 = _
    rw [e₃]
  refine ⟨hchannels, ?_, ?_, ?_⟩
  · intro x hx
    constructor
    · show (dgetR m.channels x).1 = _
      simp [dgetR, hx]
    · show (dgetR m.channels x).2 = _
      simp [dgetR, hx]
  · intro s₂
    apply resolvedList_extends (handlersM_fst_hset m s) hchannels
    intro kv hkv
    simp only [List.mem_cons] at hkv
    rcases hkv with rfl | rfl | rfl | hkv
    · rfl
    · rfl
    · rfl
    · simp at hkv
  · intro h c₂ m₃ m₄ ha₂ ha
    exact add_extensional (handlersM_fst_hset m s) (handlersM_fst_queue m s)
      (fun k => handlersM_fst_getList m s k) ha₂ ha

/-- Witness for C10 at a concrete input. -/
theorem resolution_vivification_witness :
    (handlersM initM "t:c").1.channels = initM.channels ++ [("*", []), ("t" ++ ":*", []), ("t:c", [])]
    ∧ (∀ x, lookupR initM.channels x = none →
        (getitemM initM x).1.channels = initM.channels ++ [(x, [])] ∧ (getitemM initM x).2 = [])
    ∧ (∀ s₂, resolvedList (handlersM initM "t:c").1 s₂ = resolvedList initM s₂)
    ∧ (∀ h c₂ m₃ m₄, add (handlersM initM "t:c").1 h c₂ = .ok m₃ → add initM h c₂ = .ok m₄ →
        m₃.hset = m₄.hset ∧ m₃.queue = m₄.queue ∧ ∀ k, getList m₃ k = getList m₄ k) :=
  resolution_vivification initM "t:c" "t" "c" (by rfl) (by decide) (by decide) (by rfl)
    (by rfl) (by rfl) (by decide) (by decide) (by decide)

/-! ### Lemmas about `Component.register` -/

theorem except_bind_ok {α β γ : Type} {x : Except α β} {g : β → Except α γ} {r : γ}
    (h : (x >>= g) = .ok r) : ∃ mid, x = .ok mid ∧ g mid = .ok r := by
  cases x with
  | error e =>
    simp only [Bind.bind, Except.bind] at h
    cases h
  | ok v =>
    refine ⟨v, rfl, ?_⟩
    simpa [Bind.bind, Except.bind] using h

theorem foldAdds_props {cch : Option String} {h : Handler} :
    ∀ {chans : List String} {t m₁ : MState},
      chans.foldlM (fun acc ch => add acc h (some (chanKey cch ch))) t = .ok m₁ →
      (∀ k x, x ∈ getList t k → x ∈ getList m₁ k) ∧ (∀ x ∈ t.hset, x ∈ m₁.hset)
      ∧ (∀ ch ∈ chans, h ∈ getList m₁ (chanKey cch ch)) ∧ (chans ≠ [] → h ∈ m₁.hset) := by
  intro chans
  induction chans with
  | nil =>
    intro t m₁ hf
    simp only [List.foldlM_nil] at hf
    cases hf
    refine ⟨fun k x hx => hx, fun x hx => hx, ?_, ?_⟩
    · intro ch hch
      cases hch
    · intro hne
      exact absurd rfl hne
  | cons ch chans ih =>
    intro t m₁ hf
    rw [List.foldlM_cons] at hf
    obtain ⟨mid, hmid, hrest⟩ := except_bind_ok hf
    obtain ⟨ih₁, ih₂, ih₃, ih₄⟩ := ih hrest
    refine ⟨?_, ?_, ?_, ?_⟩
    · intro k x hx
      exact ih₁ k x (add_getList_mono hmid hx)
    · intro x hx
      exact ih₂ x (add_hset_mono hmid hx)
    · intro ch₀ hch₀
      rcases List.mem_cons.mp hch₀ with he | hm
      · subst he
        exact ih₁ _ h (add_mem_getList_self hmid)
      · exact ih₃ ch₀ hm
    · intro _
      exact ih₂ h (add_mem_hset hmid)

theorem addHandlerChannels_props {cch : Option String} {h : Handler} {t m₁ : MState}
    (ha : addHandlerChannels t cch h = .ok m₁) :
    (∀ k x, x ∈ getList t k → x ∈ getList m₁ k) ∧ (∀ x ∈ t.hset, x ∈ m₁.hset)
    ∧ h ∈ m₁.hset
    ∧ (h.channels = [] → h ∈ getList m₁ (chanKey cch "*"))
    ∧ (∀ ch ∈ h.channels, h ∈ getList m₁ (chanKey cch ch)) := by
  unfold addHandlerChannels at ha
  by_cases hch : h.channels = []
  · rw [if_pos hch] at ha
    obtain ⟨f₁, f₂, f₃, f₄⟩ := foldAdds_props ha
    exact ⟨f₁, f₂, f₄ (by simp), fun _ => f₃ "*" (by simp), fun ch hm => by
      rw [hch] at hm
      cases hm⟩
  · rw [if_neg hch] at ha
    obtain ⟨f₁, f₂, f₃, f₄⟩ := foldAdds_props ha
    exact ⟨f₁, f₂, f₄ hch, fun hcon => absurd hcon hch, f₃⟩

theorem registerAdds_props {cch : Option String} :
    ∀ {tagged : List Handler} {t m₁ : MState}, registerAdds t cch tagged = .ok m₁ →
      (∀ k x, x ∈ getList t k → x ∈ getList m₁ k) ∧ (∀ x ∈ t.hset, x ∈ m₁.hset)
      ∧ ∀ h ∈ tagged, h ∈ m₁.hset ∧ (h.channels = [] → h ∈ getList m₁ (chanKey cch "*"))
          ∧ (∀ ch ∈ h.channels, h ∈ getList m₁ (chanKey cch ch)) := by
  intro tagged
  induction tagged with
  | nil =>
    intro t m₁ hf
    simp only [registerAdds, List.foldlM_nil] at hf
    cases hf
    refine ⟨fun k x hx => hx, fun x hx => hx, ?_⟩
    intro h hm
    cases hm
  | cons h₀ tagged ih =>
    intro t m₁ hf
    simp only [registerAdds, List.foldlM_cons] at hf
    obtain ⟨mid, hmid, hrest⟩ := except_bind_ok hf
    obtain ⟨ih₁, ih₂, ih₃⟩ := ih hrest
    obtain ⟨a₁, a₂, a₃, a₄, a₅⟩ := addHandlerChannels_props hmid
    refine ⟨?_, ?_, ?_⟩
    · intro k x hx
      exact ih₁ k x (a₁ k x hx)
    · intro x hx
      exact ih₂ x (a₂ x hx)
    · intro h hm
      rcases List.mem_cons.mp hm with he | hm₁
      · subst he
        exact ⟨ih₂ h a₃, fun hch => ih₁ _ h (a₄ hch), fun ch hch => ih₁ _ h (a₅ ch hch)⟩
      · exact ih₃ h hm₁

/-- C5 (amended): when `register(manager)` runs, each discovered tagged
handler with no explicitly declared channels is treated as declaring the
single channel `"*"`, and every channel name — the implicit `"*"`
included — is prefixed with `self.channel + ":"` when the component's
channel attribute is non-null; the handler is added to the target
manager under each resulting key and enters its handler set. -/
theorem register_prefixed_keys {target : MState} {cch : Option String}
    {tagged : List Handler} {sf : Bool} {m₁ : MState}
    (hreg : registerRun target cch tagged sf = .ok m₁) :
    ∀ h ∈ tagged, h ∈ m₁.hset
      ∧ (h.channels = [] → h ∈ getList m₁ (chanKey cch "*"))
      ∧ (∀ ch ∈ h.channels, h ∈ getList m₁ (chanKey cch ch)) := by
  simp only [registerRun] at hreg
  obtain ⟨mid, hmid, hrest⟩ := except_bind_ok hreg
  obtain ⟨_, _, hmem⟩ := registerAdds_props hmid
  cases sf with
  | true =>
    simp only [if_pos, pure, Except.pure] at hrest
    cases hrest
    exact hmem
  | false =>
    simp only [Bool.false_eq_true, if_false, pure, Except.pure] at hrest
    cases hrest
    intro h hm
    obtain ⟨g₁, g₂, g₃⟩ := hmem h hm
    refine ⟨?_, ?_, ?_⟩
    · rw [sendRoot_fst_hset]
      exact g₁
    · intro hch
      rw [sendRoot_fst_getList]
      exact g₂ hch
    · intro ch hch
      rw [sendRoot_fst_getList]
      exact g₃ ch hch

/-- Counterexample to C5 as stated: a tagged handler with no declared
channels, on a component whose channel is `"foo"`, is registered under
`"foo:*"`, not under the global channel `"*"`. -/
theorem register_star_not_global :
    registerRun initM (some "foo") [hWL] true = .ok mC5
    ∧ hWL ∉ getList mC5 "*" ∧ hWL ∈ getList mC5 "foo:*" := by
  refine ⟨?_, ?_, ?_⟩
  · rfl
  · decide
  · decide

/-- Witness for the amended C5 at a concrete input. -/
theorem register_prefixed_keys_witness :
    hWL ∈ mC5.hset ∧ (hWL.channels = [] → hWL ∈ getList mC5 (chanKey (some "foo") "*"))
      ∧ (∀ ch ∈ hWL.channels, hWL ∈ getList mC5 (chanKey (some "foo") ch)) :=
  @register_prefixed_keys initM (some "foo") [hWL] true mC5 (by rfl) hWL (by decide)

/-! ### Lemmas about `Component.unregister` -/

theorem foldAdds_regInv {cch : Option String} {h : Handler} :
    ∀ {chans : List String} {t m₁ : MState}, RegInv t →
      chans.foldlM (fun acc ch => add acc h (some (chanKey cch ch))) t = .ok m₁ →
      RegInv m₁ := by
  intro chans
  induction chans with
  | nil =>
    intro t m₁ hi hf
    simp only [List.foldlM_nil] at hf
    cases hf
    exact hi
  | cons ch chans ih =>
    intro t m₁ hi hf
    rw [List.foldlM_cons] at hf
    obtain ⟨mid, hmid, hrest⟩ := except_bind_ok hf
    exact ih (regInv_add hi hmid) hrest

theorem addHandlerChannels_regInv {cch : Option String} {h : Handler} {t m₁ : MState}
    (hi : RegInv t) (ha : addHandlerChannels t cch h = .ok m₁) : RegInv m₁ := by
  unfold addHandlerChannels at ha
  by_cases hch : h.channels = []
  · rw [if_pos hch] at ha
    exact foldAdds_regInv hi ha
  · rw [if_neg hch] at ha
    exact foldAdds_regInv hi ha

theorem registerAdds_regInv {cch : Option String} :
    ∀ {tagged : List Handler} {t m₁ : MState}, RegInv t →
      registerAdds t cch tagged = .ok m₁ → RegInv m₁ := by
  intro tagged
  induction tagged with
  | nil =>
    intro t m₁ hi hf
    simp only [registerAdds, List.foldlM_nil] at hf
    cases hf
    exact hi
  | cons h₀ tagged ih =>
    intro t m₁ hi hf
    simp only [registerAdds, List.foldlM_cons] at hf
    obtain ⟨mid, hmid, hrest⟩ := except_bind_ok hf
    exact ih (addHandlerChannels_regInv hi hmid) hrest

theorem sendRoot_fst_regInv {m : MState} (hi : RegInv m) (e : Event) (c : String)
    (t : Option String) : RegInv (sendRoot m e c t).1 :=
  regInv_handlersM hi (sendKey c t)

theorem registerRun_regInv {target : MState} {cch : Option String} {tagged : List Handler}
    {sf : Bool} {m₁ : MState} (hi : RegInv target)
    (hreg : registerRun target cch tagged sf = .ok m₁) : RegInv m₁ := by
  simp only [registerRun] at hreg
  obtain ⟨mid, hmid, hrest⟩ := except_bind_ok hreg
  have hmidInv : RegInv mid := registerAdds_regInv hi hmid
  cases sf with
  | true =>
    simp only [if_pos, pure, Except.pure] at hrest
    cases hrest
    exact hmidInv
  | false =>
    simp only [Bool.false_eq_true, if_false, pure, Except.pure] at hrest
    cases hrest
    exact sendRoot_fst_regInv hmidInv _ _ _

theorem unregFold_cons (ms : MState) (h : Handler) (hs : List Handler) :
    unregFold ms (h :: hs) = unregFold (remove ms h none) hs := rfl

theorem unregFold_sub_hset : ∀ {hs : List Handler} {ms : MState} {x : Handler},
    x ∈ (unregFold ms hs).hset → x ∈ ms.hset := by
  intro hs
  induction hs with
  | nil => exact fun hx => hx
  | cons h hs ih =>
    intro ms x hx
    rw [unregFold_cons] at hx
    exact remove_hset_sub (ih hx)

theorem unregFold_sub_getList : ∀ {hs : List Handler} {ms : MState} {x : Handler} {k : String},
    x ∈ getList (unregFold ms hs) k → x ∈ getList ms k := by
  intro hs
  induction hs with
  | nil => exact fun hx => hx
  | cons h hs ih =>
    intro ms x k hx
    rw [unregFold_cons] at hx
    exact remove_getList_sub (ih hx)

theorem unregFold_regInv : ∀ {hs : List Handler} {ms : MState}, RegInv ms →
    RegInv (unregFold ms hs) := by
  intro hs
  induction hs with
  | nil => exact fun hi => hi
  | cons h hs ih =>
    intro ms hi
    rw [unregFold_cons]
    exact ih (regInv_remove hi h none)

theorem unregFold_removed : ∀ {hs : List Handler} {ms : MState}, RegInv ms →
    ∀ h ∈ hs, h ∉ (unregFold ms hs).hset ∧ ∀ k, h ∉ getList (unregFold ms hs) k := by
  intro hs
  induction hs with
  | nil =>
    intro ms _ h hm
    cases hm
  | cons h₀ hs ih =>
    intro ms hi h hm
    rw [unregFold_cons]
    rcases List.mem_cons.mp hm with he | hm₁
    · subst he
      constructor
      · intro hcon
        exact remove_hset_not_mem hi.hsetNodup h none (unregFold_sub_hset hcon)
      · intro k hcon
        exact remove_none_getList ms h hi k (unregFold_sub_getList hcon)
    · exact ih (regInv_remove hi h₀ none) h hm₁

theorem updNode_getElem_self {w : World} {i : Nat} {f : WNode → WNode} {n : WNode}
    (h : w[i]? = some n) : (updNode w i f)[i]? = some (f n) := by
  unfold updNode
  rw [h]
  have hlt : i < w.length := by
    rcases List.getElem?_eq_some.mp h with ⟨hl, _⟩
    exact hl
  rw [List.getElem?_set_self hlt]

theorem updNode_getElem_other {w : World} {i j : Nat} {f : WNode → WNode} (h : i ≠ j) :
    (updNode w j f)[i]? = w[i]? := by
  unfold updNode
  cases hj : w[j]? with
  | none => rfl
  | some n => exact List.getElem?_set_ne (fun hcon => h hcon.symm)

/-- C6: after a component constructed with tagged handlers `tg` (its
construction-time `register(self)` fills its own handler set) is
registered under a manager `M` and then unregistered, none of its tagged
handlers remains in the manager's handler set or in any channel list of
its registry; and in the configuration model the unregister step resets
the component's `manager` reference to the component itself. -/
theorem unregister_complete {cch : Option String} {tg : List Handler} {cSt : MState}
    (hcon : registerAdds initM cch tg = .ok cSt) {M : MState} (hiM : RegInv M)
    {M₁ : MState} (hreg : registerRun M cch tg false = .ok M₁) :
    (∀ h ∈ tg, h ∉ (unregFold M₁ cSt.hset).hset
      ∧ ∀ kv ∈ (unregFold M₁ cSt.hset).channels, h ∉ kv.2)
    ∧ ∀ (w : World) (i : Nat) (ni : WNode), w[i]? = some ni →
        ((updNode (updNode w ni.mgr (fun n => { n with st := unregFold n.st ni.st.hset })) i
          (fun n => { n with mgr := i }))[i]?).map WNode.mgr = some i := by
  constructor
  · intro h hm
    have hhset : h ∈ cSt.hset := ((registerAdds_props hcon).2.2 h hm).1
    have hiM₁ : RegInv M₁ := registerRun_regInv hiM hreg
    obtain ⟨g₁, g₂⟩ := unregFold_removed hiM₁ h hhset
    refine ⟨g₁, ?_⟩
    intro kv hkv
    have hiU : RegInv (unregFold M₁ cSt.hset) := unregFold_regInv hiM₁
    have hl := lookupR_of_mem_nodup hiU.keysNodup hkv
    have := g₂ kv.1
    rw [getList, getListR, hl] at this
    exact this
  · intro w i ni hni
    by_cases hmgr : ni.mgr = i
    · rw [hmgr]
      have h₁ : (updNode w i (fun n => { n with st := unregFold n.st ni.st.hset }))[i]? =
          some { ni with st := unregFold ni.st ni.st.hset } := updNode_getElem_self hni
      rw [updNode_getElem_self h₁]
      rfl
    · have h₁ : (updNode w ni.mgr (fun n => { n with st := unregFold n.st ni.st.hset }))[i]? =
          w[i]? := updNode_getElem_other (fun hcon => hmgr hcon.symm)
      rw [updNode_getElem_self (h₁.trans hni)]
      rfl

/-- Witness for C6 at a concrete input: one listener-tagged component
registered under a fresh manager, then unregistered. -/
theorem unregister_complete_witness :
    (∀ h ∈ [hWL2], h ∉ (unregFold mC6reg mC6self.hset).hset
      ∧ ∀ kv ∈ (unregFold mC6reg mC6self.hset).channels, h ∉ kv.2)
    ∧ ∀ (w : World) (i : Nat) (ni : WNode), w[i]? = some ni →
        ((updNode (updNode w ni.mgr (fun n => { n with st := unregFold n.st ni.st.hset })) i
          (fun n => { n with mgr := i }))[i]?).map WNode.mgr = some i :=
  @unregister_complete none [hWL2] mC6self (by rfl) initM regInv_init mC6reg (by rfl)

/-! ### Delegation chains in the configuration model -/

theorem isRoot_chainW {w : World} {r : Nat} (h : isRootW w r = true) : chainW w r = r := by
  simpa [isRootW] using h

theorem chainIter_of_root {w : World} {r : Nat} (h : isRootW w r = true) :
    ∀ k, chainIter w k r = r := by
  intro k
  induction k with
  | zero => rfl
  | succ k ih =>
    show chainIter w k (chainW w r) = r
    rw [isRoot_chainW h]
    exact ih

theorem chainIter_add (w : World) (a : Nat) :
    ∀ (b i : Nat), chainIter w (a + b) i = chainIter w b (chainIter w a i) := by
  induction a with
  | zero =>
    intro b i
    rw [Nat.zero_add]
    rfl
  | succ a ih =>
    intro b i
    have : a + 1 + b = (a + b) + 1 := by omega
    rw [this]
    show chainIter w (a + b) (chainW w i) = chainIter w b (chainIter w (a + 1) i)
    rw [ih b (chainW w i)]
    rfl

theorem roots_unique {w : World} {i k n : Nat}
    (hk : isRootW w (chainIter w k i) = true) (hn : isRootW w (chainIter w n i) = true) :
    chainIter w k i = chainIter w n i := by
  rcases Nat.le_total k n with hle | hle
  · obtain ⟨d, rfl⟩ := Nat.le.dest hle
    rw [chainIter_add w k d i, chainIter_of_root hk]
  · obtain ⟨d, rfl⟩ := Nat.le.dest hle
    rw [chainIter_add w n d i, chainIter_of_root hn]

theorem findRootW_spec {w : World} :
    ∀ {n i : Nat}, isRootW w (chainIter w n i) = true →
      ∀ {fuel : Nat}, n ≤ fuel →
        ∃ k, k ≤ n ∧ findRootW w i fuel = some (chainIter w k i)
          ∧ isRootW w (chainIter w k i) = true := by
  intro n
  induction n with
  | zero =>
    intro i hr fuel _
    have hr₀ : isRootW w i = true := hr
    refine ⟨0, Nat.le_refl 0, ?_, hr⟩
    cases fuel with
    | zero => simp [findRootW, hr₀, chainIter]
    | succ f => simp [findRootW, hr₀, chainIter]
  | succ n ih =>
    intro i hr fuel hfuel
    by_cases h0 : isRootW w i = true
    · refine ⟨0, Nat.zero_le _, ?_, h0⟩
      cases fuel with
      | zero => simp [findRootW, h0, chainIter]
      | succ f => simp [findRootW, h0, chainIter]
    · cases fuel with
      | zero => omega
      | succ f =>
        have hr₁ : isRootW w (chainIter w n (chainW w i)) = true := hr
        obtain ⟨k, hk, heq, hroot⟩ := ih hr₁ (Nat.le_of_succ_le_succ hfuel)
        refine ⟨k + 1, Nat.succ_le_succ hk, ?_, hroot⟩
        show findRootW w i (f + 1) = some (chainIter w (k + 1) i)
        rw [findRootW, if_neg (by simp [h0])]
        exact heq

/-- C4 (amended): registration can create manager-reference cycles (see
the counterexample), so the global acyclicity claim fails; what holds is:
from any node whose delegation chain reaches a self-loop, that self-loop
is the unique root reachable on the chain, and `push`, `flush` and `send`
called on the node terminate, executing their body at exactly that root
manager's state. -/
theorem delegation_terminates {w : World} {i : Nat}
    (hterm : ∃ n, isRootW w (chainIter w n i) = true) :
    ∃ r, isRootW w r = true ∧ (∃ k, chainIter w k i = r)
      ∧ (∀ k, isRootW w (chainIter w k i) = true → chainIter w k i = r)
      ∧ (∀ e c t, ∃ fuel, pushW w i e c t fuel =
          some (updNode w r (fun n0 => { n0 with st := pushRoot n0.st e c t })))
      ∧ (∀ e c t, ∃ fuel, sendW w i e c t fuel =
          some (updNode w r (fun n0 => { n0 with st := (sendRoot n0.st e c t).1 })))
      ∧ (∃ fuel, flushW w i fuel =
          some (updNode w r (fun n0 => { n0 with st := (flushRoot n0.st).1 }))) := by
  obtain ⟨n, hn⟩ := hterm
  obtain ⟨k, _, heq, hroot⟩ := findRootW_spec hn (Nat.le_refl n)
  refine ⟨chainIter w k i, hroot, ⟨k, rfl⟩, ?_, ?_, ?_, ?_⟩
  · intro k₁ hk₁
    exact roots_unique hk₁ hroot
  · intro e c t
    refine ⟨n, ?_⟩
    rw [pushW, heq]
    rfl
  · intro e c t
    refine ⟨n, ?_⟩
    rw [sendW, heq]
    rfl
  · refine ⟨n, ?_⟩
    rw [flushW, heq]
    rfl

/-- Witness for the amended C4 on a concrete acyclic configuration. -/
theorem delegation_terminates_witness :
    ∃ r, isRootW wAcyc r = true ∧ (∃ k, chainIter wAcyc k 0 = r)
      ∧ (∀ k, isRootW wAcyc (chainIter wAcyc k 0) = true → chainIter wAcyc k 0 = r)
      ∧ (∀ e c t, ∃ fuel, pushW wAcyc 0 e c t fuel =
          some (updNode wAcyc r (fun n0 => { n0 with st := pushRoot n0.st e c t })))
      ∧ (∀ e c t, ∃ fuel, sendW wAcyc 0 e c t fuel =
          some (updNode wAcyc r (fun n0 => { n0 with st := (sendRoot n0.st e c t).1 })))
      ∧ (∃ fuel, flushW wAcyc 0 fuel =
          some (updNode wAcyc r (fun n0 => { n0 with st := (flushRoot n0.st).1 }))) :=
  delegation_terminates ⟨1, by decide⟩

theorem reach_wCyc : ReachW wCyc := by
  have s1 : ReachW [⟨initM, 0, none, []⟩] :=
    ReachW.step ReachW.nil (WStep.newComponent [] none [] initM rfl)
  have s2 : ReachW cexW2 :=
    ReachW.step s1 (WStep.newComponent [⟨initM, 0, none, []⟩] none [] initM rfl)
  have st3 : WStep cexW2 (updNode cexW2b 0 (fun n => { n with mgr := 1 })) :=
    WStep.registerOther cexW2 0 1 ⟨initM, 0, none, []⟩ ⟨initM, 1, none, []⟩ initM 1 cexW2
      cexW2b (by decide) (by decide) (by decide) rfl (by decide) (by decide) (by decide)
  have e3 : updNode cexW2b 0 (fun n => { n with mgr := 1 }) = cexW3 := by decide
  have s3 : ReachW cexW3 := e3 ▸ ReachW.step s2 st3
  have st4 : WStep cexW3 (updNode cexW3 1 (fun n => { n with mgr := 0 })) :=
    WStep.registerOther cexW3 1 0 ⟨stReg, 1, none, []⟩ ⟨initM, 1, none, []⟩ initM 1 cexW3
      cexW3 (by decide) (by decide) (by decide) rfl (by decide) (by decide) (by decide)
  have e4 : updNode cexW3 1 (fun n => { n with mgr := 0 }) = wCyc := by decide
  exact e4 ▸ ReachW.step s3 st4

/-- Counterexample to C4 as stated: two components, each registered onto
the other — a configuration reachable by construction and `register`
alone — leave their `manager` references in a two-cycle, and a `push` on
either never reaches a root (here: not even with fuel equal to the
configuration size; the chain alternates between the two nodes forever). -/
theorem register_creates_cycle :
    ReachW wCyc ∧ chainW wCyc 0 = 1 ∧ chainW wCyc 1 = 0 ∧ (0 : Nat) ≠ 1
    ∧ findRootW wCyc 0 wCyc.length = none
    ∧ pushW wCyc 0 registeredEvent "c" none wCyc.length = none := by
  refine ⟨reach_wCyc, ?_, ?_, ?_, ?_, ?_⟩
  · decide
  · decide
  · decide
  · decide
  · decide

end Circuits
